import Mathlib

/-!
# A shallow embedding of the ext4 reader of `go_fs_playground`

The development follows `gofs.go` (and `ext4/ext4_fuse.go`): the device is the
list of the bytes of the image, a seek followed by sequential reads is the
suffix of that list, and a Go panic is an error value of `Except`.

Conventions of the embedding.

* A byte is a `Fin 256`; Go strings are byte strings, hence `List Byte`.
* Unsigned on-disk fields are natural numbers (decoded little-endian, so a field
  of `k` bytes is below `2 ^ (8 * k)`); `int64` quantities are integers, and the
  arithmetic on file and device offsets is the arithmetic of the integers (the
  products of block numbers and block sizes are taken not to wrap around). The
  one shift by a count read from the image, `BLOCK_SIZE << Log_block_size`, wraps
  explicitly.
* The generated file with the ext4 structures and constants is not part of the
  sources; the layouts used are those of the ext4 format and are marked as such.
* Recursion and loops that the source does not bound carry a fuel argument; the
  outcome `Err.fuel` is not an outcome of the program, it only says that the
  fuel given was too small.
* One loop of the sources takes the address of its range variable. What that
  means depends on the version of the language, so the functions take the rule as
  the parameter `RangeVar`; every statement that does not name a rule holds for
  both.
-/

namespace Ext4

/-! ## Bytes, errors and readers -/

/-- One byte of the image. -/
abbrev Byte := Fin 256

/-- The ways in which the reader panics, named after the panic sites of `gofs.go`. -/
inductive Err where
  /-- `check(err)`: a seek or a read on the device, or a decode of a buffer, failed. -/
  | io
  /-- `log.Panic("Ext4Magic not found")`. -/
  | superMagic
  /-- `log.Panic("SuperBlock checksum incorrect")`. -/
  | superChecksum
  /-- `log.Panicf("Incompatible feature detected %x", ...)`. -/
  | incompatFeature
  /-- `log.Panic("extent flag not set")`. -/
  | extentFlag
  /-- `log.Panic("Extent header magic not found")`. -/
  | extentMagic
  /-- `log.Panic("Could not find extent")`. -/
  | noExtentIdx
  /-- `log.Panic("non initialized blocks not supported")`. -/
  | nonInitialized
  /-- `log.Panic("Can not find extent for block offset")`. -/
  | noExtent
  /-- `log.Panic("inode is not a directory")`. -/
  | notDirectory
  /-- `log.Panic("indirect_levels > 0 not implemented")`. -/
  | indirectLevels
  /-- `log.Panicf("%s not found", filePath)`. -/
  | notFound
  /-- The Go runtime panic of an integer division by zero. -/
  | divideByZero
  /-- The Go runtime panic of `make` with a negative length. -/
  | makeslice
  /-- The panic of `bytes.Buffer.Truncate` for a length out of range. -/
  | truncate
  /-- Not a behaviour of the program: the fuel of the embedding ran out. -/
  | fuel
  deriving DecidableEq, Repr

/-- Little-endian value of a byte string. -/
def le : List Byte → Nat
  | [] => 0
  | b :: bs => b.val + 256 * le bs

/-- The field of `n` bytes at offset `off` of a decoded buffer. -/
def field (buf : List Byte) (off n : Nat) : Nat :=
  le ((buf.drop off).take n)

/-- The `n` little-endian bytes of a value (`binary.Write` of an unsigned integer). -/
def putLE : Nat → Nat → List Byte
  | 0, _ => []
  | n + 1, v => Fin.ofNat v :: putLE n (v / 256)

/-- Semantics of `binary.Read(input, ...)` for a value of `n` bytes on a sequential
reader: the next `n` bytes are consumed, and fewer than `n` remaining bytes is an
error (`io.EOF` or `io.ErrUnexpectedEOF`), which `check` turns into a panic. -/
def readBytes (n : Nat) (input : List Byte) : Except Err (List Byte × List Byte) :=
  if input.length < n then .error .io else .ok (input.take n, input.drop n)

/-- The reader that `dev.Seek(pos, io.SeekStart)` leaves: the bytes of the device
from `pos` on; a negative position is an error of `Seek`. -/
def seek (dev : List Byte) (pos : Int) : Except Err (List Byte) :=
  if pos < 0 then .error .io else .ok (dev.drop pos.toNat)

/-- The call `dev.Read(result)` with `result` of `n` bytes at position `pos` (a
natural number: the seek before it succeeded): the bytes available are copied to
the front of the zeroed buffer; the call fails (`io.EOF`) only when `n > 0` and no
byte is left. -/
def devRead (dev : List Byte) (pos n : Nat) : Except Err (List Byte) :=
  let avail := (dev.drop pos).take n
  if 0 < n ∧ avail.length = 0 then .error .io
  else .ok (avail ++ List.replicate (n - avail.length) 0)

/-- The method `Read` of `bytes.Reader` used for the padding of a record, with a
buffer of `n` bytes: `io.EOF` when the reader is exhausted (also for `n = 0`),
otherwise the bytes that are left, at most `n`, are consumed. The result is the
rest of the reader. -/
def bytesReaderRead (n : Nat) (buf : List Byte) : Except Err (List Byte) :=
  if buf.length = 0 then .error .io else .ok (buf.drop n)

/-! ## Constants -/

/-- The constant `SuperBlock0Offset`. -/
def SuperBlock0Offset : Int := 1024

/-- Modelled from the spec: the unit `1024` of the block size. -/
def BLOCK_SIZE : Nat := 1024

/-- Modelled from the spec: the magic of the superblock. -/
def EXT4_SUPER_MAGIC : Nat := 0xEF53

/-- Modelled from the spec: incompat feature `FILETYPE (0x2)`. -/
def EXT4_FEATURE_INCOMPAT_FILETYPE : Nat := 0x2

/-- Modelled from the spec: incompat feature `RECOVER (0x4)`. -/
def EXT4_FEATURE_INCOMPAT_RECOVER : Nat := 0x4

/-- Modelled from the spec: incompat feature `EXTENTS (0x40)`. -/
def EXT4_FEATURE_INCOMPAT_EXTENTS : Nat := 0x40

/-- Modelled from the spec: incompat feature `64BIT (0x80)`. -/
def EXT4_FEATURE_INCOMPAT_64BIT : Nat := 0x80

/-- Modelled from the spec: incompat feature `MMP (0x100)`. -/
def EXT4_FEATURE_INCOMPAT_MMP : Nat := 0x100

/-- Modelled from the spec: incompat feature `FLEX_BG (0x200)`. -/
def EXT4_FEATURE_INCOMPAT_FLEX_BG : Nat := 0x200

/-- Modelled from the spec: the fixed number of the root inode. -/
def EXT4_ROOT_INO : Nat := 2

/-- Modelled from the spec: the inode flag EXTENTS, `0x80000`. -/
def EXT4_EXTENTS_FL : Nat := 0x80000

/-- Modelled from the spec: the inode flag `INDEX_FL = 0x1000`. -/
def EXT4_INDEX_FL : Nat := 0x1000

/-- Modelled from the spec: the constant `S_IFDIR` is used by the sources but not
declared in them; it is the directory bit of the mode. -/
def S_IFDIR : Nat := 0x4000

/-- Modelled from the spec: the value of the constant `EXT4_EXT_MAGIC`, which the
sources use but do not declare (`magic = 0xF30A`). -/
def EXT4_EXT_MAGIC : Nat := 0xF30A

/-! ## On-disk structures -/

/-- Modelled from the spec: the generated declaration of `ext4SuperBlock` is not
part of the sources. The structure is kept as the bytes it was decoded from (a
fixed layout of little-endian integers and byte arrays, which `binary.Write` maps
back to the same bytes); the fields are read at their ext4 offsets. -/
structure ext4SuperBlock where
  raw : List Byte
  deriving DecidableEq, Repr

/-- Size in bytes of the superblock structure. -/
def superBlockSize : Nat := 1024

/-- Offset of the field `Checksum` in the superblock (`unsafe.Offsetof`). -/
def superBlockChecksumOffset : Nat := 0x3FC

/-- Field `s_log_block_size`. -/
def ext4SuperBlock.Log_block_size (sb : ext4SuperBlock) : Nat := field sb.raw 0x18 4

/-- Field `s_inodes_per_group`. -/
def ext4SuperBlock.Inodes_per_group (sb : ext4SuperBlock) : Nat := field sb.raw 0x28 4

/-- Field `s_magic`. -/
def ext4SuperBlock.Magic (sb : ext4SuperBlock) : Nat := field sb.raw 0x38 2

/-- Field `s_inode_size`. -/
def ext4SuperBlock.Inode_size (sb : ext4SuperBlock) : Nat := field sb.raw 0x58 2

/-- Field `s_feature_incompat`. -/
def ext4SuperBlock.Feature_incompat (sb : ext4SuperBlock) : Nat := field sb.raw 0x60 4

/-- Field `s_desc_size`. -/
def ext4SuperBlock.Desc_size (sb : ext4SuperBlock) : Nat := field sb.raw 0xFE 2

/-- Field `s_checksum_type`. -/
def ext4SuperBlock.Checksum_type (sb : ext4SuperBlock) : Nat := field sb.raw 0x175 1

/-- Field `s_checksum`. -/
def ext4SuperBlock.Checksum (sb : ext4SuperBlock) : Nat :=
  field sb.raw superBlockChecksumOffset 4

/-- Modelled from the spec: the generated declaration of `ext4GroupDesc` is not
part of the sources. The ext4 structure has 64 bytes; it is kept as the bytes it
was decoded from, `inode_table_lo` is the word at offset 8 and `inode_table_hi` the
word at offset 40. -/
structure ext4GroupDesc where
  raw : List Byte
  deriving DecidableEq, Repr

/-- Size in bytes of the structure `ext4GroupDesc`. -/
def groupDescStructSize : Nat := 64

/-- Field `bg_inode_table_lo`. -/
def ext4GroupDesc.Inode_table_lo (gd : ext4GroupDesc) : Nat := field gd.raw 8 4

/-- Field `bg_inode_table_hi`. -/
def ext4GroupDesc.Inode_table_hi (gd : ext4GroupDesc) : Nat := field gd.raw 40 4

/-- Modelled from the spec: the generated declaration of `ext4Inode` is not part of
the sources. The fields are those of the 160 bytes of the ext4 inode that the
reader uses; `Block` is the array of 15 words (60 bytes) that holds the root of the
extent tree. -/
structure ext4Inode where
  Mode : Nat
  Uid : Nat
  Size_lo : Nat
  Atime : Nat
  Ctime : Nat
  Mtime : Nat
  Gid : Nat
  Flags : Nat
  Block : List Nat
  Size_high : Nat
  Ctime_extra : Nat
  Mtime_extra : Nat
  Atime_extra : Nat
  deriving DecidableEq, Repr

/-- Size in bytes of the structure `ext4Inode`. -/
def inodeStructSize : Nat := 160

/-- The words of an array of `n` 32-bit words, decoded from a buffer. -/
def decodeWords : Nat → List Byte → List Nat
  | 0, _ => []
  | n + 1, b => le (b.take 4) :: decodeWords n (b.drop 4)

/-- Decoding of the 160 bytes of an inode, with the fields at their ext4 offsets. -/
def decodeInode (b : List Byte) : ext4Inode :=
  { Mode := field b 0 2, Uid := field b 2 2, Size_lo := field b 4 4, Atime := field b 8 4,
    Ctime := field b 12 4, Mtime := field b 16 4, Gid := field b 24 2, Flags := field b 32 4,
    Block := decodeWords 15 (b.drop 40), Size_high := field b 108 4,
    Ctime_extra := field b 132 4, Mtime_extra := field b 136 4, Atime_extra := field b 140 4 }

/-- Modelled from the spec: the generated declaration of `ext4ExtentHeader` is not
part of the sources; the ext4 layout is `magic`, `entries`, `max`, `depth` (2 bytes
each) and `generation` (4 bytes). -/
structure ext4ExtentHeader where
  Magic : Nat
  Entries : Nat
  Max : Nat
  Depth : Nat
  Generation : Nat
  deriving DecidableEq, Repr

/-- Modelled from the spec: the generated declaration of `ext4ExtentIdx` is not part
of the sources; the ext4 layout is `block` (4 bytes), `leaf_lo` (4), `leaf_hi` (2)
and `unused` (2). -/
structure ext4ExtentIdx where
  Block : Nat
  Leaf_lo : Nat
  Leaf_hi : Nat
  Unused : Nat
  deriving DecidableEq, Repr

/-- Modelled from the spec: the generated declaration of `ext4Extent` is not part of
the sources; the ext4 layout is `block` (4 bytes), `len` (2), `start_hi` (2) and
`start_lo` (4), all unsigned. -/
structure ext4Extent where
  Block : Nat
  Len : Nat
  Start_hi : Nat
  Start_lo : Nat
  deriving DecidableEq, Repr

/-- Size in bytes of an extent header, of an index record and of an extent record. -/
def extentRecordSize : Nat := 12

/-- Decoding of the 12 bytes of an extent header. -/
def decodeExtentHeader (b : List Byte) : ext4ExtentHeader :=
  { Magic := field b 0 2, Entries := field b 2 2, Max := field b 4 2,
    Depth := field b 6 2, Generation := field b 8 4 }

/-- Decoding of the 12 bytes of an index record. -/
def decodeExtentIdx (b : List Byte) : ext4ExtentIdx :=
  { Block := field b 0 4, Leaf_lo := field b 4 4, Leaf_hi := field b 8 2,
    Unused := field b 10 2 }

/-- Decoding of the 12 bytes of an extent record. -/
def decodeExtent (b : List Byte) : ext4Extent :=
  { Block := field b 0 4, Len := field b 4 2, Start_hi := field b 6 2,
    Start_lo := field b 8 4 }

/-- The consecutive records of `12` bytes of a buffer whose length is a multiple of
12, decoded with `dec`. -/
def decodeRecords {α : Type} (dec : List Byte → α) : Nat → List Byte → List α
  | 0, _ => []
  | n + 1, b => dec (b.take extentRecordSize) :: decodeRecords dec n (b.drop extentRecordSize)

/-- `binary.Read(input, binary.LittleEndian, extentHeader)`. -/
def readExtentHeader (input : List Byte) : Except Err (ext4ExtentHeader × List Byte) :=
  match readBytes extentRecordSize input with
  | .error e => .error e
  | .ok (b, rest) => .ok (decodeExtentHeader b, rest)

/-- `binary.Read` into a slice made with `n` records: all `12 * n` bytes are read
at once, and too short an input is an error. -/
def readRecords {α : Type} (dec : List Byte → α) (n : Nat) (input : List Byte) :
    Except Err (List α × List Byte) :=
  match readBytes (extentRecordSize * n) input with
  | .error e => .error e
  | .ok (b, rest) => .ok (decodeRecords dec n b, rest)

/-- The type `ext4DirEntry2Go`. -/
structure ext4DirEntry2Go where
  Inode : Nat
  RecLen : Nat
  NameLen : Nat
  FileType : Nat
  Name : List Byte
  deriving DecidableEq, Repr

/-- Modelled from the spec: the generated declarations of `dxRoot`, `dxCountlimit`
and `dxEntry` are not part of the sources. In the ext4 layout `dx_root` has 32
bytes (two fake directory entries of 12 bytes and the 8 bytes of `dx_root_info`,
whose `indirect_levels` is the byte at offset 30), `dx_countlimit` has 4 bytes
(`limit`, `count`) and `dx_entry` 8 bytes. -/
def dxRootSize : Nat := 32

/-- Offset of `Info.Indirect_levels` in `dxRoot`. -/
def dxIndirectLevelsOffset : Nat := 30

/-- Size of `dxCountlimit`; its field `Count` is at offset 2. -/
def dxCountlimitSize : Nat := 4

/-- Size of `dxEntry`. -/
def dxEntrySize : Nat := 8

/-- The type `Ext4FS`: the device (all the bytes of the image), the superblock and
the two sizes derived from it. -/
structure Ext4FS where
  dev : List Byte
  superBlock : ext4SuperBlock
  blockSize : Int
  groupDescSize : Int
  deriving DecidableEq, Repr

/-! ## The superblock -/

/-- One bit of the table-free CRC of the reflected Castagnoli polynomial. -/
def crcBit (crc : Nat) : Nat :=
  if crc % 2 = 1 then (crc / 2) ^^^ 0x82F63B78 else crc / 2

/-- One byte of the CRC. -/
def crcByte (crc : Nat) (b : Byte) : Nat :=
  crcBit (crcBit (crcBit (crcBit (crcBit (crcBit (crcBit (crcBit (crc ^^^ b.val))))))))

/-- The library function `crc32.Checksum(data, crc32.MakeTable(crc32.Castagnoli))`:
CRC32C with initial value and final complement `0xFFFFFFFF`. -/
def crc32c (data : List Byte) : Nat :=
  (data.foldl crcByte 0xFFFFFFFF) ^^^ 0xFFFFFFFF

/-- The function `calcChecksum`. The argument `data` is the little-endian encoding
that `binary.Write` appends to the buffer; `Truncate` panics when the length asked
for exceeds the length of the buffer. -/
def calcChecksum (pfx : List Byte) (data : List Byte) (upto : Nat) (initialValue : Nat) :
    Except Err Nat :=
  let buf := pfx ++ data
  if buf.length < pfx.length + upto then .error .truncate
  else .ok (initialValue ^^^ crc32c (buf.take (pfx.length + upto)))

/-- Conversion to `int64` of an integer (two's complement wrap-around). -/
def toInt64 (x : Int) : Int :=
  (x + 2 ^ 63) % 2 ^ 64 - 2 ^ 63

/-- The set of flags that `readSuperBlock` builds in `expectedFlags`. -/
def expectedFlags : Nat :=
  0 ||| EXT4_FEATURE_INCOMPAT_FILETYPE ||| EXT4_FEATURE_INCOMPAT_RECOVER |||
    EXT4_FEATURE_INCOMPAT_EXTENTS ||| EXT4_FEATURE_INCOMPAT_64BIT |||
    EXT4_FEATURE_INCOMPAT_MMP ||| EXT4_FEATURE_INCOMPAT_FLEX_BG

/-- The checksum step of `readSuperBlock` (the `switch` on `Checksum_type`). -/
def superBlockChecksumStep (sb : ext4SuperBlock) : Except Err Unit :=
  if sb.Checksum_type = 0 then .ok ()
  else if sb.Checksum_type = 1 then
    match calcChecksum [] sb.raw superBlockChecksumOffset 0xffffffff with
    | .error e => .error e
    | .ok calculated => if calculated ≠ sb.Checksum then .error .superChecksum else .ok ()
  else .ok ()

/-- The function `readSuperBlock`. The shift `BLOCK_SIZE << Log_block_size` is a
shift of an `int64` and wraps around. -/
def readSuperBlock (f : List Byte) : Except Err Ext4FS :=
  match seek f SuperBlock0Offset with
  | .error e => .error e
  | .ok s =>
    match readBytes superBlockSize s with
    | .error e => .error e
    | .ok (raw, _) =>
      let superBlock : ext4SuperBlock := { raw := raw }
      if superBlock.Magic ≠ EXT4_SUPER_MAGIC then .error .superMagic
      else
        match superBlockChecksumStep superBlock with
        | .error e => .error e
        | .ok _ =>
          let blockSize := toInt64 ((BLOCK_SIZE : Int) * 2 ^ superBlock.Log_block_size)
          let groupDescSize : Int :=
            if superBlock.Feature_incompat &&& EXT4_FEATURE_INCOMPAT_64BIT > 0 then
              (superBlock.Desc_size : Int)
            else 32
          if superBlock.Feature_incompat &&& (0xffffffff ^^^ expectedFlags) > 0 then
            .error .incompatFeature
          else
            .ok { dev := f, superBlock := superBlock, blockSize := blockSize,
                  groupDescSize := groupDescSize }

/-! ## Group descriptors and inodes -/

/-- The address that `readGroupDesc` seeks to. -/
def groupDescAddr (ext4fs : Ext4FS) (blockGroupNum : Int) : Int :=
  let gdtLocation := Int.tdiv 1024 ext4fs.blockSize + 1
  gdtLocation * ext4fs.blockSize + ext4fs.groupDescSize * blockGroupNum

/-- The function `readGroupDesc`. -/
def readGroupDesc (ext4fs : Ext4FS) (blockGroupNum : Int) : Except Err ext4GroupDesc :=
  if ext4fs.blockSize = 0 then .error .divideByZero
  else
    match seek ext4fs.dev (groupDescAddr ext4fs blockGroupNum) with
    | .error e => .error e
    | .ok s =>
      match readBytes groupDescStructSize s with
      | .error e => .error e
      | .ok (raw, _) => .ok { raw := raw }

/-- The position that `readInode` seeks to, given the group descriptor. -/
def inodePos (fs : Ext4FS) (groupDesc : ext4GroupDesc) (inodeNr : Int) : Int :=
  let inodeTableLoc := (groupDesc.Inode_table_lo : Int) + (groupDesc.Inode_table_hi : Int) * 2 ^ 32
  let inodeIdx := Int.tmod (inodeNr - 1) (fs.superBlock.Inodes_per_group : Int)
  inodeTableLoc * fs.blockSize + inodeIdx * (fs.superBlock.Inode_size : Int)

/-- The function `readInode`. Division and remainder are the truncated ones of Go. -/
def readInode (fs : Ext4FS) (inodeNr : Int) : Except Err ext4Inode :=
  if fs.superBlock.Inodes_per_group = 0 then .error .divideByZero
  else
    let groupDescIdx := Int.tdiv (inodeNr - 1) (fs.superBlock.Inodes_per_group : Int)
    match readGroupDesc fs groupDescIdx with
    | .error e => .error e
    | .ok groupDesc =>
      match seek fs.dev (inodePos fs groupDesc inodeNr) with
      | .error e => .error e
      | .ok s =>
        match readBytes inodeStructSize s with
        | .error e => .error e
        | .ok (b, _) => .ok (decodeInode b)

/-- The type `Ext4InodeReader`. -/
structure Ext4InodeReader where
  fs : Ext4FS
  inode : ext4Inode
  offset : Int
  deriving DecidableEq, Repr

/-- The function `NewExt4InodeReader`. -/
def NewExt4InodeReader (fs : Ext4FS) (inodeNr : Int) : Except Err Ext4InodeReader :=
  match readInode fs inodeNr with
  | .error e => .error e
  | .ok inode =>
    if inode.Flags &&& EXT4_EXTENTS_FL = 0 then .error .extentFlag
    else .ok { fs := fs, inode := inode, offset := 0 }

/-! ## The extent tree -/

/-- The language rule for the variable of a `for ... range` loop. Up to Go 1.21,
and in every module whose `go.mod` names a version before 1.22, the variable is
declared once and re-used in each iteration, so that a pointer to it taken in some
iteration sees, after the loop, the element of the last iteration (`shared`). From
Go 1.22 on each iteration has a variable of its own (`fresh`). The sources are
written in the idiom of the time of the first rule (`interface{}`, a hand-written
`IntMin`), and no `go.mod` that would select the second rule is among them. -/
inductive RangeVar where
  | shared
  | fresh
  deriving DecidableEq, Repr

/-- The test of the index loop of `physicalLoc`: `int64(eln.Block) <= blockOffset`. -/
def idxHit (blockOffset : Int) (eln : ext4ExtentIdx) : Bool :=
  decide ((eln.Block : Int) ≤ blockOffset)

/-- The loop `for _, eln := range extentIdxes { if ... { best = &eln } }` of
`physicalLoc`. The second argument is what `*best` is before the remaining
iterations (`none` for the nil pointer), the result what `*best` is after the loop.
With a fresh variable per iteration `best` keeps the record of the last iteration
whose test succeeded; with a shared variable `best`, once set, points to the one
variable `eln`, which every later iteration overwrites. -/
def bestIdx (sem : RangeVar) (blockOffset : Int) :
    List ext4ExtentIdx → Option ext4ExtentIdx → Option ext4ExtentIdx
  | [], best => best
  | eln :: rest, best =>
    match sem with
    | .fresh => bestIdx sem blockOffset rest (if idxHit blockOffset eln then some eln else best)
    | .shared =>
      bestIdx sem blockOffset rest (if idxHit blockOffset eln || best.isSome then some eln else none)

/-- The test of the leaf loop of `physicalLoc`:
`(int64(eln.Block) <= blockOffset) && (blockOffset < int64(eln.Block)+int64(eln.Len))`. -/
def extentHit (blockOffset : Int) (eln : ext4Extent) : Bool :=
  decide ((eln.Block : Int) ≤ blockOffset) && decide (blockOffset < (eln.Block : Int) + (eln.Len : Int))

/-- The leaf loop of `physicalLoc`: the first record whose test succeeds ends the
loop, with a panic if `eln.Block < 0` and with that record otherwise; when the loop
runs to its end the function panics after it. -/
def leafLoop (blockOffset : Int) : List ext4Extent → Except Err ext4Extent
  | [] => .error .noExtent
  | eln :: rest =>
    if extentHit blockOffset eln then
      if (eln.Block : Int) < 0 then .error .nonInitialized else .ok eln
    else leafLoop blockOffset rest

/-- The bytes `binary.Write(buf, binary.LittleEndian, inode.inode.Block)`: every
word of the array as 4 little-endian bytes. -/
def encodeBlock (block : List Nat) : List Byte :=
  block.flatMap (putLE 4)

/-- The position of the child node of an index record:
`inode.fs.blockSize * (int64(best.Leaf_lo) + int64(best.Leaf_hi)<<32)`. -/
def leafPos (fs : Ext4FS) (best : ext4ExtentIdx) : Int :=
  fs.blockSize * ((best.Leaf_lo : Int) + (best.Leaf_hi : Int) * 2 ^ 32)

/-- The bytes that a call of `physicalLoc` reads its node from: for the nil reader
of the first call (`none`) the encoding of the `Block` array of the inode, and else
the bytes `s` that the reader `some s` has left. -/
def nodeBytes (inode : ext4Inode) : Option (List Byte) → List Byte
  | none => encodeBlock inode.Block
  | some s => s

/-- The method `physicalLoc`. The recursive call reads the device from the position
of the child on. Every call uses one unit of fuel. -/
def physicalLoc (sem : RangeVar) :
    Nat → Ext4FS → ext4Inode → Int → Option (List Byte) → Except Err ext4Extent
  | 0, _, _, _, _ => .error .fuel
  | fuel + 1, fs, inode, blockOffset, input =>
    match readExtentHeader (nodeBytes inode input) with
    | .error e => .error e
    | .ok (extentHeader, input) =>
      if extentHeader.Magic ≠ EXT4_EXT_MAGIC then .error .extentMagic
      else if extentHeader.Depth > 0 then
        match readRecords decodeExtentIdx extentHeader.Entries input with
        | .error e => .error e
        | .ok (extentIdxes, _) =>
          match bestIdx sem blockOffset extentIdxes none with
          | none => .error .noExtentIdx
          | some best =>
            match seek fs.dev (leafPos fs best) with
            | .error e => .error e
            | .ok s => physicalLoc sem fuel fs inode blockOffset (some s)
      else
        match readRecords decodeExtent extentHeader.Entries input with
        | .error e => .error e
        | .ok (leafNodes, _) => leafLoop blockOffset leafNodes

/-! ## The byte stream of an inode -/

/-- The file size that `read` computes:
`int64(inode.inode.Size_lo) + int64(inode.inode.Size_high)<<32`. -/
def fileSize (inode : ext4Inode) : Int :=
  (inode.Size_lo : Int) + (inode.Size_high : Int) * 2 ^ 32

/-- The start on the device of an extent, in blocks:
`int64(extent.Start_lo) + int64(extent.Start_hi)<<32`. -/
def extentStart (extent : ext4Extent) : Int :=
  (extent.Start_lo : Int) + (extent.Start_hi : Int) * 2 ^ 32

/-- The method `read`: the bytes returned and the reader after the call. `depth` is
the fuel of the extent lookup. The division is the truncated division of Go. -/
def read (sem : RangeVar) (depth : Nat) (inode : Ext4InodeReader) (size : Int) :
    Except Err (List Byte × Ext4InodeReader) :=
  if inode.offset = fileSize inode.inode then .ok ([], inode)
  else if inode.fs.blockSize = 0 then .error .divideByZero
  else
    let blockOffset := Int.tdiv inode.offset inode.fs.blockSize
    match physicalLoc sem depth inode.fs inode.inode blockOffset none with
    | .error e => .error e
    | .ok extent =>
      if (extent.Block : Int) < 0 then .error .nonInitialized
      else
        let logicalStart := inode.fs.blockSize * (extent.Block : Int)
        let offsetIntoExtent := inode.offset - logicalStart
        let physicalStart := inode.fs.blockSize * extentStart extent
        let bytesToRead := inode.fs.blockSize * (extent.Len : Int) - offsetIntoExtent
        let bytesToRead := if bytesToRead > size then size else bytesToRead
        let bytesToRead :=
          if fileSize inode.inode < inode.offset + bytesToRead then
            fileSize inode.inode - inode.offset
          else bytesToRead
        if physicalStart + offsetIntoExtent < 0 then .error .io
        else if bytesToRead < 0 then .error .makeslice
        else
          match devRead inode.fs.dev (physicalStart + offsetIntoExtent).toNat bytesToRead.toNat with
          | .error e => .error e
          | .ok result => .ok (result, { inode with offset := inode.offset + (result.length : Int) })

/-! ## Directories -/

/-- The loop `for i := uint16(1); i < dxCountlimit_.Count; i++` of `listDir`, which
reads one `dxEntry` per iteration; the argument is the number of iterations left. -/
def dxEntryLoop : Nat → List Byte → Except Err (List Byte)
  | 0, buf => .ok buf
  | n + 1, buf =>
    match readBytes dxEntrySize buf with
    | .error e => .error e
    | .ok (_, buf) => dxEntryLoop n buf

/-- The block of `listDir` that runs when the inode has `EXT4_INDEX_FL`: it decodes
the index header from a reader of its own over the first block and panics when
`Indirect_levels > 0`. -/
def dxHeader (dirBlock : List Byte) : Except Err Unit :=
  match readBytes dxRootSize dirBlock with
  | .error e => .error e
  | .ok (dxRoot_, buf) =>
    match readBytes dxCountlimitSize buf with
    | .error e => .error e
    | .ok (dxCountlimit_, buf) =>
      match readBytes 4 buf with
      | .error e => .error e
      | .ok (_, buf) =>
        match dxEntryLoop (field dxCountlimit_ 2 2 - 1) buf with
        | .error e => .error e
        | .ok _ =>
          if field dxRoot_ dxIndirectLevelsOffset 1 > 0 then .error .indirectLevels
          else .ok ()

/-- The loop `for buf.Len() > 0` of `listDir` over one directory block. No iteration
consumes fewer than 8 bytes, so the length of the block is fuel enough. -/
def dirBlockLoop : Nat → List Byte → List ext4DirEntry2Go → Except Err (List ext4DirEntry2Go)
  | 0, _, _ => .error .fuel
  | fuel + 1, buf, dirEntries =>
    if buf.length = 0 then .ok dirEntries
    else
      match readBytes 4 buf with
      | .error e => .error e
      | .ok (bInode, buf) =>
        match readBytes 2 buf with
        | .error e => .error e
        | .ok (bRecLen, buf) =>
          match readBytes 1 buf with
          | .error e => .error e
          | .ok (bNameLen, buf) =>
            match readBytes 1 buf with
            | .error e => .error e
            | .ok (bFileType, buf) =>
              match readBytes (le bNameLen) buf with
              | .error e => .error e
              | .ok (name, buf) =>
                if ((le bRecLen : Int) - (le bNameLen : Int) - 8) < 0 then .error .makeslice
                else
                  match bytesReaderRead (le bRecLen - le bNameLen - 8) buf with
                  | .error e => .error e
                  | .ok buf =>
                    if le bInode = 0 then .ok dirEntries
                    else
                      dirBlockLoop fuel buf
                        (dirEntries ++ [{ Inode := le bInode, RecLen := le bRecLen,
                                          NameLen := le bNameLen, FileType := le bFileType,
                                          Name := name }])

/-- The outer loop `for { ... }` of `listDir`: the current block, the entries so
far; one unit of fuel per block. -/
def listDirLoop (sem : RangeVar) (depth : Nat) :
    Nat → Ext4InodeReader → List Byte → List ext4DirEntry2Go →
      Except Err (List ext4DirEntry2Go × Ext4InodeReader)
  | 0, _, _, _ => .error .fuel
  | fuel + 1, inode, dirBlock, dirEntries =>
    if dirBlock.length = 0 then .ok (dirEntries, inode)
    else
      match dirBlockLoop dirBlock.length dirBlock dirEntries with
      | .error e => .error e
      | .ok dirEntries =>
        match read sem depth inode inode.fs.blockSize with
        | .error e => .error e
        | .ok (dirBlock, inode) => listDirLoop sem depth fuel inode dirBlock dirEntries

/-- The function `listDir`: the entries, and the reader as the calls of `read` leave
it. -/
def listDir (sem : RangeVar) (depth fuel : Nat) (inode : Ext4InodeReader) :
    Except Err (List ext4DirEntry2Go × Ext4InodeReader) :=
  if inode.inode.Mode &&& S_IFDIR = 0 then .error .notDirectory
  else
    match read sem depth inode inode.fs.blockSize with
    | .error e => .error e
    | .ok (dirBlock, inode) =>
      match (if inode.inode.Flags &&& EXT4_INDEX_FL > 0 then dxHeader dirBlock else .ok ()) with
      | .error e => .error e
      | .ok _ => listDirLoop sem depth fuel inode dirBlock []

/-! ## Paths and `readFile` -/

/-- The byte `/`. -/
def slash : Byte := 47

/-- The library function `strings.TrimPrefix(s, "/")`. -/
def trimPrefixSlash : List Byte → List Byte
  | [] => []
  | c :: cs => if c = slash then cs else c :: cs

/-- The library function `strings.Split(s, "/")`: one more piece than there are
separators, so the empty string gives one empty piece. -/
def splitSlash : List Byte → List (List Byte)
  | [] => [[]]
  | c :: cs =>
    if c = slash then [] :: splitSlash cs
    else
      match splitSlash cs with
      | [] => [[c]]
      | w :: ws => (c :: w) :: ws

/-- The path elements of `readFile`:
`strings.Split(strings.TrimPrefix(filePath, "/"), "/")`. -/
def pathElems (filePath : List Byte) : List (List Byte) :=
  splitSlash (trimPrefixSlash filePath)

/-- The loop of `readFile` over the entries of a directory: `nextInodeNr` starts at
0 and takes the inode of every entry whose name is the path element. -/
def nextInodeNr (pathElem : List Byte) : List ext4DirEntry2Go → Nat → Nat
  | [], nr => nr
  | entry :: rest, nr => nextInodeNr pathElem rest (if entry.Name = pathElem then entry.Inode else nr)

/-- The step of `readFile` after `listDir`: the number of the next inode, or the
panic `not found` when `nextInodeNr` is still 0. -/
def pathStep (dirEntries : List ext4DirEntry2Go) (pathElem : List Byte) : Except Err Nat :=
  if nextInodeNr pathElem dirEntries 0 = 0 then .error .notFound
  else .ok (nextInodeNr pathElem dirEntries 0)

/-- The loop `for _, pathElem := range pathElems` of `readFile`. -/
def walkPath (sem : RangeVar) (depth fuel : Nat) (ext4fs : Ext4FS) :
    List (List Byte) → Ext4InodeReader → Except Err Ext4InodeReader
  | [], inode => .ok inode
  | pathElem :: rest, inode =>
    if inode.inode.Mode &&& S_IFDIR = 0 then .error .notDirectory
    else
      match listDir sem depth fuel inode with
      | .error e => .error e
      | .ok (dirEntries, _) =>
        match pathStep dirEntries pathElem with
        | .error e => .error e
        | .ok nr =>
          match NewExt4InodeReader ext4fs (nr : Int) with
          | .error e => .error e
          | .ok inode => walkPath sem depth fuel ext4fs rest inode

/-- The first part of `readFile`, up to the loop that copies the file: the reader of
the inode that the path names. -/
def resolve (sem : RangeVar) (depth fuel : Nat) (fsFile : List Byte) (filePath : List Byte) :
    Except Err Ext4InodeReader :=
  match readSuperBlock fsFile with
  | .error e => .error e
  | .ok ext4fs =>
    match NewExt4InodeReader ext4fs (EXT4_ROOT_INO : Int) with
    | .error e => .error e
    | .ok inode =>
      if inode.inode.Mode &&& S_IFDIR = 0 then .error .notDirectory
      else walkPath sem depth fuel ext4fs (pathElems filePath) inode

/-- The final loop of `readFile`: `read(4096 * 10)` until a call returns no byte.
The result is the list of the chunks written to the output, in order, and the
reader after the loop; every iteration uses one unit of `fuel`. -/
def readFileLoop (sem : RangeVar) (depth : Nat) :
    Nat → Ext4InodeReader → Except Err (List (List Byte) × Ext4InodeReader)
  | 0, _ => .error .fuel
  | fuel + 1, inode =>
    match read sem depth inode (4096 * 10) with
    | .error e => .error e
    | .ok (buf3, inode) =>
      if buf3.length = 0 then .ok ([], inode)
      else
        match readFileLoop sem depth fuel inode with
        | .error e => .error e
        | .ok (chunks, inode) => .ok (buf3 :: chunks, inode)

/-- The function `readFile`: the bytes written to `outFile`. -/
def readFile (sem : RangeVar) (depth fuel : Nat) (fsFile : List Byte) (filePath : List Byte) :
    Except Err (List Byte) :=
  match resolve sem depth fuel fsFile filePath with
  | .error e => .error e
  | .ok inode =>
    match readFileLoop sem depth fuel inode with
    | .error e => .error e
    | .ok (chunks, _) => .ok chunks.flatten

/-! ## The read of the FUSE adapter -/

/-- The loop of `Ext4FuseFile.Read` in `ext4/ext4_fuse.go`: `read` is asked for what
is missing of `req.Size` until it returns no byte. -/
def fuseReadLoop (sem : RangeVar) (depth : Nat) :
    Nat → Ext4InodeReader → Int → List Byte → Except Err (List Byte × Ext4InodeReader)
  | 0, _, _, _ => .error .fuel
  | fuel + 1, inode, reqSize, result =>
    match read sem depth inode (reqSize - (result.length : Int)) with
    | .error e => .error e
    | .ok (part, inode) =>
      if part.length = 0 then .ok (result, inode)
      else fuseReadLoop sem depth fuel inode reqSize (result ++ part)

/-- The method `Ext4FuseFile.Read`: the offset of the reader is set to `req.Offset`
before the loop. The result is `resp.Data`. -/
def Ext4FuseFile.Read (sem : RangeVar) (depth fuel : Nat) (inode : Ext4InodeReader)
    (reqOffset reqSize : Int) : Except Err (List Byte × Ext4InodeReader) :=
  fuseReadLoop sem depth fuel { inode with offset := reqOffset } reqSize []

/-! ## The attributes of the FUSE adapter -/

/-- The type `time.Time`, as far as the reader shows it: the seconds since the
epoch and the nanoseconds within the second. -/
structure Time where
  sec : Int
  nsec : Int
  deriving DecidableEq, Repr

/-- The library function `time.Unix(sec, nsec)`: nanoseconds outside
`[0, 999999999]` are carried into the seconds. -/
def timeUnix (sec nsec : Int) : Time :=
  if nsec < 0 ∨ nsec ≥ 1000000000 then
    let n := Int.tdiv nsec 1000000000
    let sec := sec + n
    let nsec := nsec - n * 1000000000
    if nsec < 0 then { sec := sec - 1, nsec := nsec + 1000000000 }
    else { sec := sec, nsec := nsec }
  else { sec := sec, nsec := nsec }

/-- The fields of `fuse.Attr` that `inodeAttr` sets. -/
structure Attr where
  Mode : Nat
  Atime : Time
  Mtime : Time
  Ctime : Time
  Uid : Nat
  Gid : Nat
  Size : Nat
  deriving DecidableEq, Repr

/-- The library constant `os.ModeDir`. -/
def osModeDir : Nat := 2 ^ 31

/-- A time of `inodeAttr`:
`time.Unix((int64(extra)&4)<<32+int64(base), int64(extra)>>2)`. -/
def attrTime (base extra : Nat) : Time :=
  timeUnix ((((extra &&& 4 : Nat) : Int) * 2 ^ 32) + (base : Int)) ((extra : Int) / 4)

/-- The function `inodeAttr` of `ext4/ext4_fuse.go`: the attributes that it sets
(it returns no error). -/
def inodeAttr (inode : ext4Inode) : Attr :=
  { Mode := if inode.Mode &&& S_IFDIR ≠ 0 then osModeDir ||| inode.Mode else inode.Mode,
    Atime := attrTime inode.Atime inode.Atime_extra,
    Mtime := attrTime inode.Mtime inode.Mtime_extra,
    Ctime := attrTime inode.Ctime inode.Ctime_extra,
    Uid := inode.Uid,
    Gid := inode.Gid,
    Size := inode.Size_lo + inode.Size_high * 2 ^ 32 }

/-! ## Notions used in the statements -/

/-- The extent records of a leaf node: the `Entries` records of 12 bytes that follow
the header `hdr`, `rest` being the bytes after the header. -/
def nodeExtents (hdr : ext4ExtentHeader) (rest : List Byte) : List ext4Extent :=
  decodeRecords decodeExtent hdr.Entries (rest.take (extentRecordSize * hdr.Entries))

/-- The index records of an interior node: the `Entries` records of 12 bytes that
follow the header `hdr`, `rest` being the bytes after the header. -/
def nodeIdxes (hdr : ext4ExtentHeader) (rest : List Byte) : List ext4ExtentIdx :=
  decodeRecords decodeExtentIdx hdr.Entries (rest.take (extentRecordSize * hdr.Entries))

/-- An extent covers a logical block: `Block <= target < Block + Len`. -/
def Covers (e : ext4Extent) (target : Int) : Prop :=
  (e.Block : Int) ≤ target ∧ target < (e.Block : Int) + (e.Len : Int)

instance (e : ext4Extent) (target : Int) : Decidable (Covers e target) := by
  unfold Covers; infer_instance

/-- The number of bytes that `read(max)` is to return at an offset inside the extent
`e`: the minimum of what is left of the extent
(`e.Len * block_size - (offset - e.Block * block_size)`), of `max` and of what is
left of the file. -/
def readCount (inode : Ext4InodeReader) (e : ext4Extent) (max : Int) : Int :=
  min (min ((e.Len : Int) * inode.fs.blockSize -
    (inode.offset - (e.Block : Int) * inode.fs.blockSize)) max)
    (fileSize inode.inode - inode.offset)

/-- The absolute position on the device of the byte at the offset of the reader,
inside the extent `e`:
`e.start * block_size + (offset - e.Block * block_size)`. -/
def readPos (inode : Ext4InodeReader) (e : ext4Extent) : Int :=
  extentStart e * inode.fs.blockSize + (inode.offset - (e.Block : Int) * inode.fs.blockSize)

/-- The listing of the root directory as `readFile` obtains it before the loop over
the path elements looks up the first element: `readSuperBlock`, the reader of the
root inode, the directory check and `listDir`. -/
def rootEntries (sem : RangeVar) (depth fuel : Nat) (fsFile : List Byte) :
    Except Err (List ext4DirEntry2Go) :=
  match readSuperBlock fsFile with
  | .error e => .error e
  | .ok ext4fs =>
    match NewExt4InodeReader ext4fs (EXT4_ROOT_INO : Int) with
    | .error e => .error e
    | .ok inode =>
      if inode.inode.Mode &&& S_IFDIR = 0 then .error .notDirectory
      else
        match listDir sem depth fuel inode with
        | .error e => .error e
        | .ok (dirEntries, _) => .ok dirEntries

/-- The location of the inode table that `readInode` computes from a group
descriptor, in blocks:
`int64(groupDesc.Inode_table_lo) + (int64(groupDesc.Inode_table_hi) << 32)`. -/
def inodeTableLoc (groupDesc : ext4GroupDesc) : Int :=
  (groupDesc.Inode_table_lo : Int) + (groupDesc.Inode_table_hi : Int) * 2 ^ 32

/-- The block of the descriptor table that `readGroupDesc` computes:
`1024/ext4fs.blockSize + 1`. -/
def gdtLocation (ext4fs : Ext4FS) : Int :=
  Int.tdiv 1024 ext4fs.blockSize + 1

/-- The first block holds a complete index header without indirect levels: the 32
bytes of `dx_root`, `dx_countlimit`, the block pointer and the `count - 1` entries
are inside the block, and `indirect_levels` is 0. -/
def CompleteIndexHeader (dirBlock : List Byte) : Prop :=
  dxRootSize + dxCountlimitSize + 4 +
      dxEntrySize * (field ((dirBlock.drop dxRootSize).take dxCountlimitSize) 2 2 - 1)
    ≤ dirBlock.length ∧
  field (dirBlock.take dxRootSize) dxIndirectLevelsOffset 1 = 0

/-- The reader with the flags of its inode replaced. -/
def setFlags (flags : Nat) (inode : Ext4InodeReader) : Ext4InodeReader :=
  { inode with inode := { inode.inode with Flags := flags } }

/-- The field `Depth` of the header of a node, 0 when the header cannot be read. -/
def headerDepth (node : List Byte) : Nat :=
  match readExtentHeader node with
  | .error _ => 0
  | .ok (hdr, _) => hdr.Depth

/-- The reader that the recursive call of `physicalLoc` gets, when the call on the
node `node` reaches it: the device from the position of the child of the selected
index record on. -/
def childNode (sem : RangeVar) (fs : Ext4FS) (target : Int) (node : List Byte) :
    Option (List Byte) :=
  match readExtentHeader node with
  | .error _ => none
  | .ok (hdr, rest) =>
    if hdr.Magic ≠ EXT4_EXT_MAGIC then none
    else if hdr.Depth > 0 then
      match readRecords decodeExtentIdx hdr.Entries rest with
      | .error _ => none
      | .ok (extentIdxes, _) =>
        match bestIdx sem target extentIdxes none with
        | none => none
        | some best =>
          match seek fs.dev (leafPos fs best) with
          | .error _ => none
          | .ok s => some s
    else none

/-- Every child that the walk of `physicalLoc` for `target` descends into, from the
node `node` on, has a header depth strictly smaller than that of its parent. The
first argument bounds the number of descents that are followed; the depth of `node`
is enough. -/
def depthsDecrease (sem : RangeVar) (fs : Ext4FS) (target : Int) : Nat → List Byte → Bool
  | budget, node =>
    match childNode sem fs target node with
    | none => true
    | some s =>
      match budget with
      | 0 => false
      | budget + 1 =>
        decide (headerDepth s < headerDepth node) && depthsDecrease sem fs target budget s

/-- A record of a directory block: the four fields of its header, the bytes of its
name and the bytes of its padding. -/
structure DirRecord where
  Inode : Nat
  RecLen : Nat
  NameLen : Nat
  FileType : Nat
  Name : List Byte
  Pad : List Byte
  deriving DecidableEq, Repr

/-- The bytes of a record on the disk: `inode` (4 bytes), `rec_len` (2), `name_len`
(1), `file_type` (1), the name and the padding. -/
def DirRecord.bytes (r : DirRecord) : List Byte :=
  putLE 4 r.Inode ++ (putLE 2 r.RecLen ++ (putLE 1 r.NameLen ++ (putLE 1 r.FileType ++
    (r.Name ++ r.Pad))))

/-- The fields of a record fit their widths, the name has `name_len` bytes, and
`rec_len` is the length of the record: `8 + name_len` and the padding. -/
def DirRecord.WellFormed (r : DirRecord) : Prop :=
  r.Inode < 2 ^ 32 ∧ r.RecLen < 2 ^ 16 ∧ r.NameLen < 2 ^ 8 ∧ r.FileType < 2 ^ 8 ∧
    r.Name.length = r.NameLen ∧ r.RecLen = 8 + r.NameLen + r.Pad.length

/-- The entry that `listDir` makes of a record. -/
def DirRecord.entry (r : DirRecord) : ext4DirEntry2Go :=
  { Inode := r.Inode, RecLen := r.RecLen, NameLen := r.NameLen, FileType := r.FileType,
    Name := r.Name }

instance (r : DirRecord) : Decidable r.WellFormed := by
  unfold DirRecord.WellFormed; infer_instance

/-! ## Concrete inodes, devices and images -/

/-- A file inode of 1500 bytes whose `Block` array is a leaf node (depth 0) with one
extent: logical block 0, 2 blocks, at physical block 2. -/
def fileInode : ext4Inode :=
  { Mode := 0x81A4, Uid := 0, Size_lo := 1500, Atime := 0, Ctime := 0, Mtime := 0, Gid := 0,
    Flags := 0x80000,
    Block := [0x0001F30A, 0x00000004, 0, 0, 2, 2, 0, 0, 0, 0, 0, 0, 0, 0, 0],
    Size_high := 0, Ctime_extra := 0, Mtime_extra := 0, Atime_extra := 0 }

/-- A device of four blocks of 1024 bytes; the blocks 2 and 3 hold the bytes 7 and 9. -/
def fourBlocks : List Byte :=
  List.replicate 2048 1 ++ List.replicate 1024 7 ++ List.replicate 1024 9

/-- A filesystem value over `fourBlocks` with blocks of 1024 bytes. -/
def smallFs : Ext4FS :=
  { dev := fourBlocks, superBlock := { raw := [] }, blockSize := 1024, groupDescSize := 32 }

/-- The 12 bytes of the header of a leaf node with one entry. -/
def leafHeaderBytes : List Byte := [0x0A, 0xF3, 1, 0, 84, 1, 0, 0, 0, 0, 0, 0]

/-- A device whose block 2 is a leaf node with the extent of the logical blocks
0..99 (at physical block 10) and whose block 3 is a leaf node with the extent of the
logical blocks 100..149 (at physical block 200). -/
def treeDev : List Byte :=
  List.replicate 2048 0 ++
    (leafHeaderBytes ++ [0, 0, 0, 0, 100, 0, 0, 0, 10, 0, 0, 0]) ++ List.replicate 1000 0 ++
    (leafHeaderBytes ++ [100, 0, 0, 0, 50, 0, 0, 0, 200, 0, 0, 0])

/-- A filesystem value over `treeDev` with blocks of 1024 bytes. -/
def treeFs : Ext4FS :=
  { dev := treeDev, superBlock := { raw := [] }, blockSize := 1024, groupDescSize := 32 }

/-- An inode whose `Block` array is an interior node (depth 1) with two index
records in ascending order: logical block 0 with the child in block 2, and logical
block 100 with the child in block 3. -/
def treeInode : ext4Inode :=
  { Mode := 0x81A4, Uid := 0, Size_lo := 153600, Atime := 0, Ctime := 0, Mtime := 0, Gid := 0,
    Flags := 0x80000,
    Block := [0x0002F30A, 0x00010004, 0, 0, 2, 0, 100, 3, 0, 0, 0, 0, 0, 0, 0],
    Size_high := 0, Ctime_extra := 0, Mtime_extra := 0, Atime_extra := 0 }

/-- A file inode of 1500 bytes whose only extent (logical block 0, at physical block
2) has the length field `0x8001`: one block, with the bit of an uninitialized extent
set. -/
def uninitInode : ext4Inode :=
  { Mode := 0x81A4, Uid := 0, Size_lo := 1500, Atime := 0, Ctime := 0, Mtime := 0, Gid := 0,
    Flags := 0x80000,
    Block := [0x0001F30A, 0x00000004, 0, 0, 0x8001, 2, 0, 0, 0, 0, 0, 0, 0, 0, 0],
    Size_high := 0, Ctime_extra := 0, Mtime_extra := 0, Atime_extra := 0 }

/-- A run of zero bytes. -/
def zeros (n : Nat) : List Byte := List.replicate n 0

/-- The 1024 bytes of a superblock with `log_block_size = 0` (blocks of 1024 bytes),
16 inodes per group, the magic `0xEF53`, inodes of 256 bytes, checksum type 0 and
the given 4 bytes of `feature_incompat`. -/
def superBlockBytes (incompat : List Byte) : List Byte :=
  zeros 0x28 ++ [16, 0, 0, 0] ++ zeros 12 ++ [0x53, 0xEF] ++ zeros 30 ++ [0, 1] ++ zeros 6 ++
    incompat ++ zeros (1024 - 0x64)

/-- The 256 bytes of an inode with the given mode and size, the EXTENTS flag, and a
leaf root with one extent: logical block 0, one block, at the physical block
`start`. -/
def inodeBytes (mode : List Byte) (size : Byte) (start : Byte) : List Byte :=
  mode ++ zeros 2 ++ [size, 0, 0, 0] ++ zeros 24 ++ [0, 0, 8, 0] ++ zeros 4 ++
    [0x0A, 0xF3, 1, 0, 4, 0, 0, 0, 0, 0, 0, 0, 0, 0, 0, 0, 1, 0, 0, 0, start, 0, 0, 0] ++
    zeros (256 - 64)

/-- A directory of 64 bytes with the entries `.` and `..` (inode 2) and `hello`
(inode 12); the last record extends to the end of the directory. -/
def rootDirBytes : List Byte :=
  [2, 0, 0, 0, 12, 0, 1, 2, 46, 0, 0, 0,
   2, 0, 0, 0, 12, 0, 2, 2, 46, 46, 0, 0,
   12, 0, 0, 0, 40, 0, 5, 1, 104, 101, 108, 108, 111] ++ zeros 27

/-- An image with blocks of 1024 bytes: block 1 is the superblock (features FILETYPE
and EXTENTS), block 2 the group descriptor table (inode table at block 3), blocks 3
to 6 the inode table (inode 2 is the root directory, inode 12 a file of 5 bytes),
block 7 the root directory and block 8 the bytes `hello` of the file. -/
def image : List Byte :=
  zeros 1024 ++ superBlockBytes [0x42, 0, 0, 0] ++
    (zeros 8 ++ [3, 0, 0, 0] ++ zeros (1024 - 12)) ++
    (zeros 256 ++ inodeBytes [0xED, 0x41] 64 7 ++ zeros (9 * 256) ++
      inodeBytes [0xA4, 0x81] 5 8 ++ zeros (4 * 256)) ++
    rootDirBytes ++ zeros (1024 - 64) ++ [104, 101, 108, 108, 111]

/-- The start of an image whose superblock has the incompat features FILETYPE,
EXTENTS and INLINE_DATA (`0x8000`). -/
def inlineDataImage : List Byte :=
  zeros 1024 ++ superBlockBytes [0x42, 0x80, 0, 0]

/-- The entries of the root directory of `image`. -/
def imageRootEntries : List ext4DirEntry2Go :=
  [{ Inode := 2, RecLen := 12, NameLen := 1, FileType := 2, Name := [46] },
   { Inode := 2, RecLen := 12, NameLen := 2, FileType := 2, Name := [46, 46] },
   { Inode := 12, RecLen := 40, NameLen := 5, FileType := 1, Name := [104, 101, 108, 108, 111] }]

/-- A filesystem value whose device is one directory of 64 bytes, at block 0. -/
def dirFs : Ext4FS :=
  { dev := rootDirBytes, superBlock := { raw := [] }, blockSize := 1024, groupDescSize := 32 }

/-- A directory inode of 64 bytes whose only extent is the block 0 of the device. -/
def dirInode : ext4Inode :=
  { Mode := 0x41ED, Uid := 0, Size_lo := 64, Atime := 0, Ctime := 0, Mtime := 0, Gid := 0,
    Flags := 0x80000,
    Block := [0x0001F30A, 0x00000004, 0, 0, 1, 0, 0, 0, 0, 0, 0, 0, 0, 0, 0],
    Size_high := 0, Ctime_extra := 0, Mtime_extra := 0, Atime_extra := 0 }

/-- The first `0x3FC` bytes of a superblock like `superBlockBytes [0x42, 0, 0, 0]`,
but with checksum type 1 (CRC32C). -/
def checksummedPrefix : List Byte :=
  zeros 0x28 ++ [16, 0, 0, 0] ++ zeros 12 ++ [0x53, 0xEF] ++ zeros 30 ++ [0, 1] ++ zeros 6 ++
    [0x42, 0, 0, 0] ++ zeros (0x175 - 0x64) ++ [1] ++ zeros (0x3FC - 0x176)

/-- The 1024 bytes of the superblock with the bytes `checksummedPrefix` and the
given 4 bytes of the checksum field. -/
def checksummedSuperBlock (checksum : List Byte) : List Byte :=
  checksummedPrefix ++ checksum

/-- A directory block of 1024 bytes tiled by three records: `.` with `rec_len = 12`,
`..` with `rec_len = 1000`, and the record of inode 12 with the given name of 4
bytes or fewer in the last 12 bytes, with `rec_len = 12`. With a name of 4 bytes
the last record has no padding. -/
def packedBlock (name : List Byte) : List Byte :=
  [2, 0, 0, 0, 12, 0, 1, 2, 46, 0, 0, 0] ++
  ([2, 0, 0, 0, 0xE8, 0x03, 2, 2, 46, 46] ++ zeros 990) ++
  ([12, 0, 0, 0, 12, 0, Fin.ofNat name.length, 1] ++ name ++ zeros (4 - name.length))

/-- The three records of the block `packedBlock name`, for a name of 4 bytes or
fewer. -/
def packedRecords (name : List Byte) : List DirRecord :=
  [{ Inode := 2, RecLen := 12, NameLen := 1, FileType := 2, Name := [46], Pad := zeros 3 },
   { Inode := 2, RecLen := 1000, NameLen := 2, FileType := 2, Name := [46, 46],
     Pad := zeros 990 },
   { Inode := 12, RecLen := 12, NameLen := name.length, FileType := 1, Name := name,
     Pad := zeros (4 - name.length) }]

/-- A filesystem value whose device is the one block `packedBlock name`. -/
def packedFs (name : List Byte) : Ext4FS :=
  { dev := packedBlock name, superBlock := { raw := [] }, blockSize := 1024,
    groupDescSize := 32 }

/-- A directory inode of 1024 bytes whose only extent is block 0 of the device. -/
def packedInode : ext4Inode :=
  { Mode := 0x41ED, Uid := 0, Size_lo := 1024, Atime := 0, Ctime := 0, Mtime := 0, Gid := 0,
    Flags := 0x80000,
    Block := [0x0001F30A, 0x00000004, 0, 0, 1, 0, 0, 0, 0, 0, 0, 0, 0, 0, 0],
    Size_high := 0, Ctime_extra := 0, Mtime_extra := 0, Atime_extra := 0 }

/-- The first block (1024 bytes) of a directory with an index: the fake entries `.`
and `..` (the second one extends to the end of the block), the 8 bytes of
`dx_root_info` with the given `indirect_levels`, `dx_countlimit` with `count = 2`,
the first block pointer and one `dx_entry`. -/
def dxRootBlock (levels : Byte) : List Byte :=
  [2, 0, 0, 0, 12, 0, 1, 2, 46, 0, 0, 0,
   2, 0, 0, 0, 0xF4, 0x03, 2, 2, 46, 46, 0, 0,
   0, 0, 0, 0, 1, 8, levels, 0,
   123, 0, 2, 0,
   1, 0, 0, 0,
   0x78, 0x56, 0x34, 0x12, 1, 0, 0, 0] ++ zeros (1024 - 48)

/-- A directory block of 1024 bytes with the one entry `hello` (inode 12), which
extends to the end of the block. -/
def helloBlock : List Byte :=
  [12, 0, 0, 0, 0, 4, 5, 1, 104, 101, 108, 108, 111] ++ zeros (1024 - 13)

/-- A filesystem value whose device is a directory of two blocks: `dxRootBlock` and
`helloBlock`. -/
def dxFs (levels : Byte) : Ext4FS :=
  { dev := dxRootBlock levels ++ helloBlock, superBlock := { raw := [] }, blockSize := 1024,
    groupDescSize := 32 }

/-- A directory inode of 2048 bytes with the given flags, whose only extent is the
blocks 0 and 1 of the device. -/
def dxInode (flags : Nat) : ext4Inode :=
  { Mode := 0x41ED, Uid := 0, Size_lo := 2048, Atime := 0, Ctime := 0, Mtime := 0, Gid := 0,
    Flags := flags,
    Block := [0x0001F30A, 0x00000004, 0, 0, 2, 0, 0, 0, 0, 0, 0, 0, 0, 0, 0],
    Size_high := 0, Ctime_extra := 0, Mtime_extra := 0, Atime_extra := 0 }

/-- The inode `fileInode` with the times 1000, 2000 and 3000 and the given `_extra`
words of the access, modification and change time. -/
def timedInode (atimeExtra mtimeExtra ctimeExtra : Nat) : ext4Inode :=
  { fileInode with Atime := 1000, Mtime := 2000, Ctime := 3000, Atime_extra := atimeExtra,
                   Mtime_extra := mtimeExtra, Ctime_extra := ctimeExtra }

/-- The image `image` with a second group descriptor after the first one in the
descriptor table: descriptors of 32 bytes, that of group 0 with the inode table at
block 3 and that of group 1 with the inode table at the block `table`. With
`table = 0` the image is `image`. -/
def twoGroupImage (table : Byte) : List Byte :=
  zeros 1024 ++ superBlockBytes [0x42, 0, 0, 0] ++
    ((zeros 8 ++ [3, 0, 0, 0] ++ zeros 20) ++ (zeros 8 ++ [table, 0, 0, 0] ++ zeros 20) ++
      zeros (1024 - 64)) ++
    (zeros 256 ++ inodeBytes [0xED, 0x41] 64 7 ++ zeros (9 * 256) ++
      inodeBytes [0xA4, 0x81] 5 8 ++ zeros (4 * 256)) ++
    rootDirBytes ++ zeros (1024 - 64) ++ [104, 101, 108, 108, 111]

/-- An inode whose `Block` array is a leaf root with `entries = 2` and `max = 1`:
the extents of the logical block 0 (at physical block 5) and of the logical block 1
(at physical block 9). -/
def crowdedRootInode : ext4Inode :=
  { Mode := 0x81A4, Uid := 0, Size_lo := 2048, Atime := 0, Ctime := 0, Mtime := 0, Gid := 0,
    Flags := 0x80000,
    Block := [0x0002F30A, 0x00000001, 0, 0, 1, 5, 1, 1, 9, 0, 0, 0, 0, 0, 0],
    Size_high := 0, Ctime_extra := 0, Mtime_extra := 0, Atime_extra := 0 }

/-- A device with blocks of 1024 bytes whose block 2 is a leaf node with
`entries = 86` and `max = 84`. The records 1 to 84 are zero and fill the block up to
its last 4 bytes, the record 85 lies across the end of the block, and the record 86,
at the bytes 8 to 19 of block 3, is the extent of the logical blocks 500..509 (at
physical block 77). -/
def overfullDev : List Byte :=
  zeros 2048 ++ ([0x0A, 0xF3, 86, 0, 84, 0, 0, 0, 0, 0, 0, 0] ++ zeros 1012) ++
    (zeros 8 ++ [0xF4, 1, 0, 0, 10, 0, 0, 0, 77, 0, 0, 0] ++ zeros 1004)

/-- A filesystem value over `overfullDev` with blocks of 1024 bytes. -/
def overfullFs : Ext4FS :=
  { dev := overfullDev, superBlock := { raw := [] }, blockSize := 1024, groupDescSize := 32 }

/-- An inode whose `Block` array is an interior node (depth 1) with one index
record: logical block 0 with the child in block 2. -/
def overfullInode : ext4Inode :=
  { Mode := 0x81A4, Uid := 0, Size_lo := 1048576, Atime := 0, Ctime := 0, Mtime := 0, Gid := 0,
    Flags := 0x80000,
    Block := [0x0001F30A, 0x00010004, 0, 0, 2, 0, 0, 0, 0, 0, 0, 0, 0, 0, 0],
    Size_high := 0, Ctime_extra := 0, Mtime_extra := 0, Atime_extra := 0 }

/-- The inode `crowdedRootInode` with `max = 4` in the header of its root. -/
def roomyRootInode : ext4Inode :=
  { crowdedRootInode with
    Block := [0x0002F30A, 0x00000004, 0, 0, 1, 5, 1, 1, 9, 0, 0, 0, 0, 0, 0] }

/-- An inode whose `Block` array is a leaf root with `entries = 5` and `max = 4`;
the four records that fit are the extents of the logical blocks 0, 1, 2 and 3. -/
def fiveEntriesInode : ext4Inode :=
  { crowdedRootInode with
    Block := [0x0005F30A, 0x00000004, 0, 0, 1, 5, 1, 1, 9, 2, 1, 10, 3, 1, 11] }

/-- A device whose block 2 is an interior node (depth 1) with one index record:
logical block 0 with the child in block 2, the node itself. -/
def cyclicDev : List Byte :=
  zeros 2048 ++
    ([0x0A, 0xF3, 1, 0, 84, 0, 1, 0, 0, 0, 0, 0] ++ [0, 0, 0, 0, 2, 0, 0, 0, 0, 0, 0, 0] ++
      zeros 1000)

/-- A filesystem value over `cyclicDev` with blocks of 1024 bytes. -/
def cyclicFs : Ext4FS :=
  { dev := cyclicDev, superBlock := { raw := [] }, blockSize := 1024, groupDescSize := 32 }

/-- An inode whose `Block` array is an interior node (depth 1) with one index
record: logical block 0 with the child in block 2. -/
def cyclicInode : ext4Inode :=
  { Mode := 0x81A4, Uid := 0, Size_lo := 1024, Atime := 0, Ctime := 0, Mtime := 0, Gid := 0,
    Flags := 0x80000,
    Block := [0x0001F30A, 0x00010004, 0, 0, 2, 0, 0, 0, 0, 0, 0, 0, 0, 0, 0],
    Size_high := 0, Ctime_extra := 0, Mtime_extra := 0, Atime_extra := 0 }

deriving instance DecidableEq for Except

/-! ## Decoding -/

theorem le_lt (bs : List Byte) : le bs < 256 ^ bs.length := by
  induction bs with
  | nil => simp [le]
  | cons b bs ih =>
    have hb := b.isLt
    rw [le, List.length_cons, pow_succ]
    omega

theorem field_lt (buf : List Byte) (off n : Nat) : field buf off n < 256 ^ n := by
  unfold field
  have h1 := le_lt ((buf.drop off).take n)
  have h2 : ((buf.drop off).take n).length ≤ n := by
    rw [List.length_take]; omega
  exact lt_of_lt_of_le h1 (Nat.pow_le_pow_right (by norm_num) h2)

/-! ## The extent lookup `physicalLoc` -/

theorem extentHit_iff (target : Int) (e : ext4Extent) :
    extentHit target e = true ↔ Covers e target := by
  simp [extentHit, Covers]

theorem extentHit_false_iff (target : Int) (e : ext4Extent) :
    extentHit target e = false ↔ ¬ Covers e target := by
  rw [← extentHit_iff]; simp

theorem leafLoop_ok {target : Int} {recs : List ext4Extent} {e : ext4Extent}
    (h : leafLoop target recs = .ok e) :
    Covers e target ∧ ∃ pre post, recs = pre ++ e :: post ∧ ∀ r ∈ pre, ¬ Covers r target := by
  induction recs with
  | nil => simp [leafLoop] at h
  | cons r rs ih =>
    unfold leafLoop at h
    by_cases hr : extentHit target r = true
    · have hneg : ¬ ((r.Block : Int) < 0) := by omega
      simp only [hr, if_true, if_neg hneg] at h
      injection h with h
      subst h
      exact ⟨(extentHit_iff _ _).1 hr, [], rs, rfl, by simp⟩
    · simp only [hr] at h
      obtain ⟨hc, pre, post, hrs, hpre⟩ := ih h
      refine ⟨hc, r :: pre, post, by simp [hrs], ?_⟩
      intro x hx
      rcases List.mem_cons.1 hx with rfl | hx
      · rw [← extentHit_iff]; exact hr
      · exact hpre x hx

theorem leafLoop_none {target : Int} {recs : List ext4Extent}
    (h : ∀ r ∈ recs, ¬ Covers r target) : leafLoop target recs = .error .noExtent := by
  induction recs with
  | nil => rfl
  | cons r rs ih =>
    unfold leafLoop
    have hr : extentHit target r = false := (extentHit_false_iff _ _).2 (h r (by simp))
    simp only [hr]
    exact ih (fun x hx => h x (by simp [hx]))

theorem leafLoop_never_nonInitialized (target : Int) (recs : List ext4Extent) :
    leafLoop target recs ≠ .error .nonInitialized := by
  induction recs with
  | nil => simp [leafLoop]
  | cons r rs ih =>
    unfold leafLoop
    have hneg : ¬ ((r.Block : Int) < 0) := by omega
    split_ifs
    · simp
    · exact ih

theorem readRecords_ok {α : Type} (dec : List Byte → α) (n : Nat) (input : List Byte)
    {recs : List α} {rest : List Byte} (h : readRecords dec n input = .ok (recs, rest)) :
    recs = decodeRecords dec n (input.take (extentRecordSize * n)) := by
  by_cases hlt : input.length < extentRecordSize * n
  · simp [readRecords, readBytes, hlt] at h
  · simp only [readRecords, readBytes, hlt, if_false, Except.ok.injEq, Prod.mk.injEq] at h
    exact h.1.symm

theorem readRecords_error {α : Type} (dec : List Byte → α) (n : Nat) (input : List Byte)
    {e : Err} (h : readRecords dec n input = .error e) : e = .io := by
  by_cases hlt : input.length < extentRecordSize * n
  · simp only [readRecords, readBytes, hlt, if_true, Except.error.injEq] at h
    exact h.symm
  · simp [readRecords, readBytes, hlt] at h

theorem physicalLoc_leaf_eq (sem : RangeVar) (fuel : Nat) (fs : Ext4FS) (inode : ext4Inode)
    (target : Int) (input : Option (List Byte)) (hdr : ext4ExtentHeader) (rest : List Byte)
    (hh : readExtentHeader (nodeBytes inode input) = .ok (hdr, rest)) (hd : hdr.Depth = 0) :
    physicalLoc sem (fuel + 1) fs inode target input =
      if hdr.Magic ≠ EXT4_EXT_MAGIC then .error .extentMagic
      else match readRecords decodeExtent hdr.Entries rest with
        | .error e => .error e
        | .ok (leafNodes, _) => leafLoop target leafNodes := by
  rw [physicalLoc]
  simp only [hh, hd, gt_iff_lt, lt_self_iff_false, if_false]

theorem physicalLoc_interior_eq (sem : RangeVar) (fuel : Nat) (fs : Ext4FS) (inode : ext4Inode)
    (target : Int) (input : Option (List Byte)) (hdr : ext4ExtentHeader) (rest : List Byte)
    (hh : readExtentHeader (nodeBytes inode input) = .ok (hdr, rest))
    (hm : hdr.Magic = EXT4_EXT_MAGIC) (hd : 0 < hdr.Depth)
    (hlen : extentRecordSize * hdr.Entries ≤ rest.length) :
    physicalLoc sem (fuel + 1) fs inode target input =
      match bestIdx sem target (nodeIdxes hdr rest) none with
      | none => .error .noExtentIdx
      | some best =>
        match seek fs.dev (leafPos fs best) with
        | .error e => .error e
        | .ok s => physicalLoc sem fuel fs inode target (some s) := by
  have hr : readRecords decodeExtentIdx hdr.Entries rest
      = .ok (nodeIdxes hdr rest, rest.drop (extentRecordSize * hdr.Entries)) := by
    unfold readRecords readBytes nodeIdxes
    rw [if_neg (by omega)]
  have hm' : ¬ (hdr.Magic ≠ EXT4_EXT_MAGIC) := by rw [hm]; simp
  rw [physicalLoc]
  simp only [hh, hm', if_false, gt_iff_lt, hd, if_true, hr]

theorem bestIdx_shared_spec (target : Int) :
    ∀ (pre : List ext4ExtentIdx) (last : ext4ExtentIdx) (init : Option ext4ExtentIdx),
      bestIdx .shared target (pre ++ [last]) init =
        if init.isSome || (pre ++ [last]).any (idxHit target) then some last else none := by
  intro pre
  induction pre with
  | nil =>
    intro last init
    simp only [List.nil_append, bestIdx, List.any_cons, List.any_nil, Bool.or_false]
    by_cases hl : idxHit target last = true <;> cases init <;> simp [hl]
  | cons a pre ih =>
    intro last init
    rw [List.cons_append, bestIdx]
    simp only [ih, List.any_cons]
    by_cases ha : idxHit target a = true <;> cases init <;> simp [ha]

theorem bestIdx_fresh_spec (target : Int) :
    ∀ (idxes : List ext4ExtentIdx) (init : Option ext4ExtentIdx),
      ((∀ r ∈ idxes, idxHit target r = false) ∧ bestIdx .fresh target idxes init = init) ∨
      (∃ pre b post, idxes = pre ++ b :: post ∧ idxHit target b = true ∧
        (∀ r ∈ post, idxHit target r = false) ∧ bestIdx .fresh target idxes init = some b) := by
  intro idxes
  induction idxes with
  | nil => intro init; left; simp [bestIdx]
  | cons d ds ih =>
    intro init
    rw [bestIdx]
    rcases ih (if idxHit target d then some d else init) with
      ⟨hnone, heq⟩ | ⟨pre, b, post, hds, hb, hpost, heq⟩
    · by_cases hd : idxHit target d = true
      · right
        refine ⟨[], d, ds, rfl, hd, hnone, ?_⟩
        rw [heq, if_pos hd]
      · left
        refine ⟨?_, ?_⟩
        · intro x hx
          rcases List.mem_cons.1 hx with rfl | hx
          · simpa using hd
          · exact hnone x hx
        · rw [heq, if_neg hd]
    · right
      exact ⟨d :: pre, b, post, by rw [hds]; rfl, hb, hpost, heq⟩

/-- With a range variable that is fresh in every iteration (Go 1.22 and later) the
index loop selects, in a node whose records are in strictly ascending order of
`Block`, the record with the greatest `Block` that does not exceed the target, and
`best` stays nil when no record has `Block <= target`. -/
theorem bestIdx_fresh_greatest (target : Int) (idxes : List ext4ExtentIdx)
    (hsorted : idxes.Pairwise (fun a b => a.Block < b.Block)) :
    ((∀ r ∈ idxes, ¬ ((r.Block : Int) ≤ target)) → bestIdx .fresh target idxes none = none) ∧
    (∀ best ∈ idxes, (best.Block : Int) ≤ target →
      (∀ r ∈ idxes, (r.Block : Int) ≤ target → r.Block ≤ best.Block) →
      bestIdx .fresh target idxes none = some best) := by
  have hhit : ∀ r : ext4ExtentIdx, idxHit target r = true ↔ (r.Block : Int) ≤ target := by
    intro r; simp [idxHit]
  constructor
  · intro hnone
    rcases bestIdx_fresh_spec target idxes none with ⟨-, heq⟩ | ⟨pre, b, post, hds, hb, -, -⟩
    · exact heq
    · exact absurd ((hhit b).1 hb) (hnone b (by rw [hds]; simp))
  · intro best hmem hle hmax
    rcases bestIdx_fresh_spec target idxes none with ⟨hnone, -⟩ | ⟨pre, b, post, hds, hb, hpost, heq⟩
    · have := hnone best hmem
      rw [(hhit best).2 hle] at this
      contradiction
    · rw [heq]
      have hbmem : b ∈ idxes := by rw [hds]; simp
      have h1 : b.Block ≤ best.Block := hmax b hbmem ((hhit b).1 hb)
      rw [hds] at hsorted hmem
      rw [List.pairwise_append] at hsorted
      obtain ⟨-, hbp, hpre⟩ := hsorted
      rw [List.pairwise_cons] at hbp
      rcases List.mem_append.1 hmem with hin | hin
      · have := hpre best hin b (by simp)
        omega
      · rcases List.mem_cons.1 hin with rfl | hin
        · rfl
        · have := hpost best hin
          rw [(hhit best).2 hle] at this
          contradiction

/-- With the range variable of the sources, shared by all iterations, the pointer
`best` of the index loop, once set, refers to the variable that holds the last
record after the loop: for an interior node with at least one record,
`physicalLoc` goes on in the child of the last record as soon as some record has
`Block <= target`, whichever record that is. -/
theorem physicalLoc_interior_shared (fuel : Nat) (fs : Ext4FS) (inode : ext4Inode)
    (target : Int) (input : Option (List Byte)) (hdr : ext4ExtentHeader) (rest : List Byte)
    (pre : List ext4ExtentIdx) (last : ext4ExtentIdx)
    (hh : readExtentHeader (nodeBytes inode input) = .ok (hdr, rest))
    (hm : hdr.Magic = EXT4_EXT_MAGIC) (hd : 0 < hdr.Depth)
    (hlen : extentRecordSize * hdr.Entries ≤ rest.length)
    (hrecs : nodeIdxes hdr rest = pre ++ [last])
    (hsome : ∃ r ∈ nodeIdxes hdr rest, (r.Block : Int) ≤ target) :
    physicalLoc .shared (fuel + 1) fs inode target input =
      match seek fs.dev (leafPos fs last) with
      | .error e => .error e
      | .ok s => physicalLoc .shared fuel fs inode target (some s) := by
  have heq := physicalLoc_interior_eq .shared fuel fs inode target input hdr rest hh hm hd hlen
  have hany : (pre ++ [last]).any (idxHit target) = true := by
    obtain ⟨r, hr, hle⟩ := hsome
    rw [hrecs] at hr
    rw [List.any_eq_true]
    exact ⟨r, hr, by simp [idxHit, hle]⟩
  rw [heq, hrecs, bestIdx_shared_spec, hany]
  simp

/-- The selection rule under Go 1.22 and later (a fresh range variable per
iteration): for an interior node with index records in strictly ascending order,
`physicalLoc` goes on in the child of the record with the greatest `Block` not above
the target, and panics when no record has `Block <= target`. -/
theorem physicalLoc_interior_fresh (fuel : Nat) (fs : Ext4FS) (inode : ext4Inode)
    (target : Int) (input : Option (List Byte)) (hdr : ext4ExtentHeader) (rest : List Byte)
    (hh : readExtentHeader (nodeBytes inode input) = .ok (hdr, rest))
    (hm : hdr.Magic = EXT4_EXT_MAGIC) (hd : 0 < hdr.Depth)
    (hlen : extentRecordSize * hdr.Entries ≤ rest.length)
    (hsorted : (nodeIdxes hdr rest).Pairwise (fun a b => a.Block < b.Block)) :
    ((∀ r ∈ nodeIdxes hdr rest, ¬ ((r.Block : Int) ≤ target)) →
      physicalLoc .fresh (fuel + 1) fs inode target input = .error .noExtentIdx) ∧
    (∀ best ∈ nodeIdxes hdr rest, (best.Block : Int) ≤ target →
      (∀ r ∈ nodeIdxes hdr rest, (r.Block : Int) ≤ target → r.Block ≤ best.Block) →
      physicalLoc .fresh (fuel + 1) fs inode target input =
        match seek fs.dev (leafPos fs best) with
        | .error e => .error e
        | .ok s => physicalLoc .fresh fuel fs inode target (some s)) := by
  have heq := physicalLoc_interior_eq .fresh fuel fs inode target input hdr rest hh hm hd hlen
  obtain ⟨h1, h2⟩ := bestIdx_fresh_greatest target (nodeIdxes hdr rest) hsorted
  constructor
  · intro hnone
    rw [heq, h1 hnone]
  · intro best hmem hle hmax
    rw [heq, h2 best hmem hle hmax]

/-! ## The method `read` -/

theorem read_unfold (sem : RangeVar) (depth : Nat) (inode : Ext4InodeReader) (max : Int)
    (e : ext4Extent) (hne : inode.offset ≠ fileSize inode.inode)
    (hbs0 : inode.fs.blockSize ≠ 0)
    (hloc : physicalLoc sem depth inode.fs inode.inode
      (Int.tdiv inode.offset inode.fs.blockSize) none = .ok e) :
    read sem depth inode max =
      if readPos inode e < 0 then .error .io
      else if readCount inode e max < 0 then .error .makeslice
      else
        match devRead inode.fs.dev (readPos inode e).toNat (readCount inode e max).toNat with
        | .error err => .error err
        | .ok result =>
          .ok (result, { inode with offset := inode.offset + (result.length : Int) }) := by
  have hB : ¬ ((e.Block : Int) < 0) := by omega
  have hpos : inode.fs.blockSize * extentStart e + (inode.offset - inode.fs.blockSize * (e.Block : Int))
      = readPos inode e := by unfold readPos; ring
  have hcnt : (if fileSize inode.inode < inode.offset +
        (if inode.fs.blockSize * (e.Len : Int) - (inode.offset - inode.fs.blockSize * (e.Block : Int)) > max
          then max
          else inode.fs.blockSize * (e.Len : Int) - (inode.offset - inode.fs.blockSize * (e.Block : Int)))
      then fileSize inode.inode - inode.offset
      else (if inode.fs.blockSize * (e.Len : Int) - (inode.offset - inode.fs.blockSize * (e.Block : Int)) > max
          then max
          else inode.fs.blockSize * (e.Len : Int) - (inode.offset - inode.fs.blockSize * (e.Block : Int))))
      = readCount inode e max := by
    unfold readCount
    rw [Int.mul_comm inode.fs.blockSize (e.Len : Int), Int.mul_comm inode.fs.blockSize (e.Block : Int)]
    simp only [min_def]
    split_ifs <;> omega
  unfold read
  simp only [if_neg hne, if_neg hbs0, hloc, hB, if_false, hpos, hcnt]

theorem read_past_end_fails (sem : RangeVar) (depth : Nat) (inode : Ext4InodeReader)
    (max : Int) (h : fileSize inode.inode < inode.offset) :
    ∃ err, read sem depth inode max = .error err := by
  have hne : inode.offset ≠ fileSize inode.inode := ne_of_gt h
  by_cases hbs0 : inode.fs.blockSize = 0
  · exact ⟨.divideByZero, by simp [read, hne, hbs0]⟩
  · cases hloc : physicalLoc sem depth inode.fs inode.inode
        (Int.tdiv inode.offset inode.fs.blockSize) none with
    | error err =>
      refine ⟨err, ?_⟩
      unfold read
      simp only [if_neg hne, if_neg hbs0, hloc]
    | ok e =>
      rw [read_unfold sem depth inode max e hne hbs0 hloc]
      have hle : readCount inode e max ≤ fileSize inode.inode - inode.offset := min_le_right _ _
      have hn : readCount inode e max < 0 := by omega
      by_cases hp : readPos inode e < 0
      · exact ⟨.io, by rw [if_pos hp]⟩
      · exact ⟨.makeslice, by rw [if_neg hp, if_pos hn]⟩

/-! ## The copy loop of `readFile` -/

theorem dirBlockLoop_inode_ne_zero :
    ∀ (fuel : Nat) (buf : List Byte) (acc out : List ext4DirEntry2Go),
      dirBlockLoop fuel buf acc = .ok out → (∀ e ∈ acc, e.Inode ≠ 0) → ∀ e ∈ out, e.Inode ≠ 0 := by
  intro fuel
  induction fuel with
  | zero => intro buf acc out h; simp [dirBlockLoop] at h
  | succ n ih =>
    intro buf acc out h hacc
    rw [dirBlockLoop] at h
    repeat' (first
      | contradiction
      | (simp only [Except.ok.injEq] at h; subst h; exact hacc)
      | (refine ih _ _ _ h ?_
         intro e he
         rcases List.mem_append.1 he with he | he
         · exact hacc e he
         · simp only [List.mem_singleton] at he
           subst he
           assumption)
      | split at h)

theorem listDirLoop_inode_ne_zero (sem : RangeVar) (depth : Nat) :
    ∀ (fuel : Nat) (inode : Ext4InodeReader) (dirBlock : List Byte)
      (acc out : List ext4DirEntry2Go) (inode' : Ext4InodeReader),
      listDirLoop sem depth fuel inode dirBlock acc = .ok (out, inode') →
      (∀ e ∈ acc, e.Inode ≠ 0) → ∀ e ∈ out, e.Inode ≠ 0 := by
  intro fuel
  induction fuel with
  | zero => intro inode dirBlock acc out inode' h; simp [listDirLoop] at h
  | succ n ih =>
    intro inode dirBlock acc out inode' h hacc
    rw [listDirLoop] at h
    split_ifs at h with hz
    · simp only [Except.ok.injEq, Prod.mk.injEq] at h
      rw [← h.1]
      exact hacc
    · split at h
      · contradiction
      · rename_i acc' hblock
        split at h
        · contradiction
        · exact ih _ _ _ _ _ h (dirBlockLoop_inode_ne_zero _ _ _ _ hblock hacc)

theorem listDir_inode_ne_zero (sem : RangeVar) (depth fuel : Nat) (inode inode' : Ext4InodeReader)
    (dirEntries : List ext4DirEntry2Go)
    (h : listDir sem depth fuel inode = .ok (dirEntries, inode')) :
    ∀ e ∈ dirEntries, e.Inode ≠ 0 := by
  unfold listDir at h
  split_ifs at h with hm
  split at h
  · contradiction
  · split at h
    · contradiction
    · exact listDirLoop_inode_ne_zero sem depth _ _ _ _ _ _ h (by simp)

theorem nextInodeNr_spec (pathElem : List Byte) :
    ∀ (dirEntries : List ext4DirEntry2Go) (nr : Nat),
      ((∀ e ∈ dirEntries, e.Name ≠ pathElem) ∧ nextInodeNr pathElem dirEntries nr = nr) ∨
      (∃ pre e post, dirEntries = pre ++ e :: post ∧ e.Name = pathElem ∧
        (∀ x ∈ post, x.Name ≠ pathElem) ∧ nextInodeNr pathElem dirEntries nr = e.Inode) := by
  intro dirEntries
  induction dirEntries with
  | nil => intro nr; left; simp [nextInodeNr]
  | cons d ds ih =>
    intro nr
    rw [nextInodeNr]
    rcases ih (if d.Name = pathElem then d.Inode else nr) with ⟨hnone, heq⟩ | ⟨pre, e, post, hds, hn, hpost, heq⟩
    · by_cases hd : d.Name = pathElem
      · right
        refine ⟨[], d, ds, rfl, hd, hnone, ?_⟩
        rw [heq, if_pos hd]
      · left
        refine ⟨?_, ?_⟩
        · intro x hx
          rcases List.mem_cons.1 hx with rfl | hx
          · exact hd
          · exact hnone x hx
        · rw [heq, if_neg hd]
    · right
      exact ⟨d :: pre, e, post, by rw [hds]; rfl, hn, hpost, heq⟩

/-- The step of `readFile` on a listing without an entry of inode 0: `not found`
exactly when no entry has the name, and the inode of the last entry with the name
otherwise. -/
theorem pathStep_spec (dirEntries : List ext4DirEntry2Go) (pathElem : List Byte)
    (hnz : ∀ e ∈ dirEntries, e.Inode ≠ 0) :
    (pathStep dirEntries pathElem = .error .notFound ↔ ∀ e ∈ dirEntries, e.Name ≠ pathElem) ∧
    (∀ err, pathStep dirEntries pathElem = .error err → err = .notFound) ∧
    (∀ nr, pathStep dirEntries pathElem = .ok nr →
      ∃ e ∈ dirEntries, e.Name = pathElem ∧ e.Inode = nr) ∧
    (∀ e ∈ dirEntries, e.Name = pathElem →
      (∀ x ∈ dirEntries, x.Name = pathElem → x = e) → pathStep dirEntries pathElem = .ok e.Inode) := by
  unfold pathStep
  rcases nextInodeNr_spec pathElem dirEntries 0 with ⟨hnone, heq⟩ | ⟨pre, e, post, hds, hn, hpost, heq⟩
  · rw [heq]
    simp only [if_true, true_iff]
    refine ⟨hnone, ?_, ?_, ?_⟩
    · intro err herr
      simp only [Except.error.injEq] at herr
      exact herr.symm
    · intro nr hnr
      contradiction
    · intro e he hne
      exact absurd hne (hnone e he)
  · have hmem : e ∈ dirEntries := by rw [hds]; simp
    have hne : e.Inode ≠ 0 := hnz e hmem
    rw [heq, if_neg hne]
    refine ⟨?_, ?_, ?_, ?_⟩
    · constructor
      · intro hc; contradiction
      · intro hall; exact absurd hn (hall e hmem)
    · intro err herr; contradiction
    · intro nr hnr
      simp only [Except.ok.injEq] at hnr
      exact ⟨e, hmem, hn, hnr⟩
    · intro e' he' hn' huniq
      rw [huniq e hmem hn]

/-- The resolution of the path `/` on any image: `readFile` starts at the root
inode, number 2, and removes one leading `/` from the path. For the path `/` one path element is left, the empty
name, and it is looked up in the listing of the root directory like every other
name: when the listing has no entry with an empty name the resolution fails with
`not found`, and when the step finds the inode number `nr` the resolution goes on
with the inode `nr`. -/
theorem resolve_slash_looks_up_empty_name (sem : RangeVar) (depth fuel : Nat)
    (fsFile : List Byte) (dirEntries : List ext4DirEntry2Go)
    (hroot : rootEntries sem depth fuel fsFile = .ok dirEntries) :
    EXT4_ROOT_INO = 2 ∧ pathElems [slash] = [[]] ∧
    ((∀ e ∈ dirEntries, e.Name ≠ []) → resolve sem depth fuel fsFile [slash] = .error .notFound) ∧
    (∀ nr ext4fs, pathStep dirEntries [] = .ok nr → readSuperBlock fsFile = .ok ext4fs →
      resolve sem depth fuel fsFile [slash] = NewExt4InodeReader ext4fs (nr : Int)) := by
  have hpe : pathElems [slash] = [[]] := by decide
  refine ⟨rfl, hpe, ?_, ?_⟩
  · intro hnone
    unfold rootEntries at hroot
    unfold resolve
    cases hsb : readSuperBlock fsFile with
    | error e => rw [hsb] at hroot; contradiction
    | ok ext4fs =>
      rw [hsb] at hroot
      simp only at hroot ⊢
      cases hino : NewExt4InodeReader ext4fs (EXT4_ROOT_INO : Int) with
      | error e => rw [hino] at hroot; contradiction
      | ok inode =>
        rw [hino] at hroot
        simp only at hroot ⊢
        split_ifs at hroot ⊢ with hdir
        rw [hpe, walkPath, if_neg hdir]
        cases hls : listDir sem depth fuel inode with
        | error e => rw [hls] at hroot; contradiction
        | ok p =>
          obtain ⟨es, inode'⟩ := p
          rw [hls] at hroot
          simp only [Except.ok.injEq] at hroot
          subst hroot
          have hstep := ((pathStep_spec es []
            (listDir_inode_ne_zero sem depth fuel inode inode' es hls)).1).2 hnone
          simp only [hstep]
  · intro nr ext4fs hstep hsb
    unfold rootEntries at hroot
    unfold resolve
    rw [hsb] at hroot ⊢
    simp only at hroot ⊢
    cases hino : NewExt4InodeReader ext4fs (EXT4_ROOT_INO : Int) with
    | error e => rw [hino] at hroot; contradiction
    | ok inode =>
      rw [hino] at hroot
      simp only at hroot ⊢
      split_ifs at hroot ⊢ with hdir
      rw [hpe, walkPath, if_neg hdir]
      cases hls : listDir sem depth fuel inode with
      | error e => rw [hls] at hroot; contradiction
      | ok p =>
        obtain ⟨es, inode'⟩ := p
        rw [hls] at hroot
        simp only [Except.ok.injEq] at hroot
        subst hroot
        simp only [hstep]
        cases NewExt4InodeReader ext4fs (nr : Int) with
        | error e => rfl
        | ok r => simp [walkPath]

/-- An instance of `resolve_slash_looks_up_empty_name`: the root directory of
`image` lists `.`, `..` and `hello`, no entry with an empty name, and the resolution
of `/` fails with `not found`. -/
theorem resolve_slash_looks_up_empty_name_example :
    rootEntries .shared 1 2 image = .ok imageRootEntries ∧
      resolve .shared 1 2 image [slash] = .error .notFound :=
  ⟨by decide!,
    (resolve_slash_looks_up_empty_name .shared 1 2 image imageRootEntries (by decide!)).2.2.1
      (by decide)⟩

/-! ## The feature test of `readSuperBlock` -/

theorem expectedFlags_eq : expectedFlags = 0x3C6 := by decide

/-- A 32-bit word meets the complement of the accepted flags exactly when it has a
bit that the accepted flags do not have. -/
theorem incompat_test_iff (x : Nat) (hx : x < 2 ^ 32) :
    x &&& (0xffffffff ^^^ expectedFlags) > 0 ↔
      ∃ i, x.testBit i = true ∧ (0x3C6 : Nat).testBit i = false := by
  rw [expectedFlags_eq]
  constructor
  · intro h
    obtain ⟨i, hi⟩ := Nat.ne_zero_implies_bit_true (Nat.pos_iff_ne_zero.1 h)
    rw [Nat.testBit_and, Bool.and_eq_true] at hi
    refine ⟨i, hi.1, ?_⟩
    have hm : ((0xffffffff ^^^ 0x3C6) &&& 0x3C6 : Nat).testBit i = false := by
      have : ((0xffffffff ^^^ 0x3C6) &&& 0x3C6 : Nat) = 0 := by decide
      rw [this]; exact Nat.zero_testBit i
    rw [Nat.testBit_and, hi.2, Bool.true_and] at hm
    exact hm
  · rintro ⟨i, hi1, hi2⟩
    have hi : i < 32 := by
      by_contra hge
      have hle : x < 2 ^ i := lt_of_lt_of_le hx (Nat.pow_le_pow_right (by norm_num) (by omega))
      rw [Nat.testBit_lt_two_pow hle] at hi1
      contradiction
    have hones : (0xffffffff : Nat).testBit i = true := by
      have : (0xffffffff : Nat) = 2 ^ 32 - 1 := by norm_num
      rw [this, Nat.testBit_two_pow_sub_one]
      simpa using hi
    have hbit : (x &&& (0xffffffff ^^^ 0x3C6)).testBit i = true := by
      rw [Nat.testBit_and, Nat.testBit_xor, hi1, hones, hi2]
      rfl
    apply Nat.pos_of_ne_zero
    intro h0
    rw [h0, Nat.zero_testBit] at hbit
    contradiction

/-! ## The checksum -/

theorem calcChecksum_eq (pfx data : List Byte) (upto initialValue : Nat)
    (h : upto ≤ data.length) :
    calcChecksum pfx data upto initialValue
      = .ok (initialValue ^^^ crc32c (pfx ++ data.take upto)) := by
  unfold calcChecksum
  simp only [List.length_append]
  rw [if_neg (by omega), List.take_append]

theorem readBytes_length {n : Nat} {input b rest : List Byte}
    (h : readBytes n input = .ok (b, rest)) : b.length = n := by
  unfold readBytes at h
  split_ifs at h with hlt
  simp only [Except.ok.injEq, Prod.mk.injEq] at h
  rw [← h.1, List.length_take]
  omega

theorem foldl_take_drop {α β : Type} (f : β → α → β) (s : β) (l : List α) (k : Nat) :
    List.foldl f s l = List.foldl f (List.foldl f s (l.take k)) (l.drop k) := by
  rw [← List.foldl_append, List.take_append_drop]

/-- The CRC32C of `checksummedPrefix`, evaluated in four pieces of at most 256
bytes. -/
theorem checksummedPrefix_crc : crc32c checksummedPrefix = 0xB1270445 := by
  have e1 : List.foldl crcByte 0xFFFFFFFF (checksummedPrefix.take 256) = 3120407429 := by
    decide!
  have e2 : List.foldl crcByte 3120407429 ((checksummedPrefix.drop 256).take 256)
      = 3638263443 := by decide!
  have e3 : List.foldl crcByte 3638263443 (((checksummedPrefix.drop 256).drop 256).take 256)
      = 529096538 := by decide!
  have e4 : List.foldl crcByte 529096538 (((checksummedPrefix.drop 256).drop 256).drop 256)
      = 1322843066 := by decide!
  rw [crc32c.eq_1, foldl_take_drop crcByte _ checksummedPrefix 256, e1,
    foldl_take_drop crcByte _ (checksummedPrefix.drop 256) 256, e2,
    foldl_take_drop crcByte _ ((checksummedPrefix.drop 256).drop 256) 256, e3, e4]
  decide

theorem checksummedSuperBlock_crc (checksum : List Byte) :
    crc32c ((checksummedSuperBlock checksum).take superBlockChecksumOffset) = 0xB1270445 := by
  have hlen : checksummedPrefix.length = superBlockChecksumOffset := by decide!
  unfold checksummedSuperBlock
  rw [List.take_left' hlen, checksummedPrefix_crc]

/-! ## Group descriptors and inodes -/

theorem groupDescAddr_eq (ext4fs : Ext4FS) (blockGroupNum : Int) :
    groupDescAddr ext4fs blockGroupNum
      = gdtLocation ext4fs * ext4fs.blockSize + ext4fs.groupDescSize * blockGroupNum := rfl

theorem inodePos_eq (fs : Ext4FS) (groupDesc : ext4GroupDesc) (inodeNr : Int) :
    inodePos fs groupDesc inodeNr
      = inodeTableLoc groupDesc * fs.blockSize +
        Int.tmod (inodeNr - 1) (fs.superBlock.Inodes_per_group : Int) *
          (fs.superBlock.Inode_size : Int) := rfl

theorem readBytes_eq (n : Nat) (input : List Byte) (h : n ≤ input.length) :
    readBytes n input = .ok (input.take n, input.drop n) := by
  unfold readBytes
  rw [if_neg (by omega)]

theorem readBytes_short (n : Nat) (input : List Byte) (h : input.length < n) :
    readBytes n input = .error .io := by
  unfold readBytes
  rw [if_pos h]

theorem readBytes_error {n : Nat} {input : List Byte} {e : Err}
    (h : readBytes n input = .error e) : e = .io := by
  unfold readBytes at h
  split_ifs at h
  simp only [Except.error.injEq] at h
  exact h.symm

theorem dxEntryLoop_ok : ∀ (n : Nat) (buf : List Byte), dxEntrySize * n ≤ buf.length →
    dxEntryLoop n buf = .ok (buf.drop (dxEntrySize * n)) := by
  intro n
  induction n with
  | zero => intro buf _; simp [dxEntryLoop]
  | succ n ih =>
    intro buf h
    have hmul : dxEntrySize * (n + 1) = dxEntrySize + dxEntrySize * n := by ring
    have h8 : dxEntrySize ≤ buf.length := by omega
    have hrest : dxEntrySize * n ≤ (buf.drop dxEntrySize).length := by
      rw [List.length_drop]
      omega
    rw [dxEntryLoop, readBytes_eq _ _ h8]
    simp only
    rw [ih _ hrest, List.drop_drop, hmul]

theorem dxEntryLoop_error : ∀ (n : Nat) (buf : List Byte) (e : Err),
    dxEntryLoop n buf = .error e → e = .io := by
  intro n
  induction n with
  | zero => intro buf e h; simp [dxEntryLoop] at h
  | succ n ih =>
    intro buf e h
    rw [dxEntryLoop] at h
    cases hr : readBytes dxEntrySize buf with
    | error e' =>
      rw [hr] at h
      simp only [Except.error.injEq] at h
      rw [← h]
      exact readBytes_error hr
    | ok p =>
      rw [hr] at h
      exact ih _ _ h

/-- The index header is accepted when it is complete and has no indirect levels. -/
theorem dxHeader_ok (dirBlock : List Byte) (h : CompleteIndexHeader dirBlock) :
    dxHeader dirBlock = .ok () := by
  obtain ⟨hlen, hlev⟩ := h
  have h32 : dxRootSize ≤ dirBlock.length := by omega
  have h4 : dxCountlimitSize ≤ (dirBlock.drop dxRootSize).length := by
    rw [List.length_drop]; omega
  have h4' : 4 ≤ ((dirBlock.drop dxRootSize).drop dxCountlimitSize).length := by
    rw [List.length_drop, List.length_drop]; omega
  have hent : dxEntrySize *
      (field ((dirBlock.drop dxRootSize).take dxCountlimitSize) 2 2 - 1) ≤
      (((dirBlock.drop dxRootSize).drop dxCountlimitSize).drop 4).length := by
    rw [List.length_drop, List.length_drop, List.length_drop]; omega
  unfold dxHeader
  rw [readBytes_eq _ _ h32]
  simp only
  rw [readBytes_eq _ _ h4]
  simp only
  rw [readBytes_eq _ _ h4']
  simp only
  rw [dxEntryLoop_ok _ _ hent]
  simp only
  rw [if_neg (by omega)]

/-- With `indirect_levels > 0` the index header is never accepted: either a read of
the header fails or the check of the levels panics. -/
theorem dxHeader_levels_pos (dirBlock : List Byte)
    (h : field (dirBlock.take dxRootSize) dxIndirectLevelsOffset 1 > 0) :
    (dxHeader dirBlock = .error .io ∨ dxHeader dirBlock = .error .indirectLevels) ∧
    (dxRootSize + dxCountlimitSize + 4 +
        dxEntrySize * (field ((dirBlock.drop dxRootSize).take dxCountlimitSize) 2 2 - 1)
      ≤ dirBlock.length → dxHeader dirBlock = .error .indirectLevels) := by
  constructor
  · unfold dxHeader
    cases h1 : readBytes dxRootSize dirBlock with
    | error e => left; rw [readBytes_error h1]
    | ok p1 =>
      obtain ⟨dxRoot_, buf1⟩ := p1
      have hroot : dxRoot_ = dirBlock.take dxRootSize := by
        unfold readBytes at h1
        split_ifs at h1
        simp only [Except.ok.injEq, Prod.mk.injEq] at h1
        exact h1.1.symm
      simp only
      cases h2 : readBytes dxCountlimitSize buf1 with
      | error e => left; rw [readBytes_error h2]
      | ok p2 =>
        obtain ⟨cl, buf2⟩ := p2
        simp only
        cases h3 : readBytes 4 buf2 with
        | error e => left; rw [readBytes_error h3]
        | ok p3 =>
          obtain ⟨blk, buf3⟩ := p3
          simp only
          cases h4 : dxEntryLoop (field cl 2 2 - 1) buf3 with
          | error e => left; rw [dxEntryLoop_error _ _ _ h4]
          | ok p4 =>
            right
            simp only
            rw [hroot, if_pos h]
  · intro hlen
    have h32 : dxRootSize ≤ dirBlock.length := by omega
    have h4 : dxCountlimitSize ≤ (dirBlock.drop dxRootSize).length := by
      rw [List.length_drop]; omega
    have h4' : 4 ≤ ((dirBlock.drop dxRootSize).drop dxCountlimitSize).length := by
      rw [List.length_drop, List.length_drop]; omega
    have hent : dxEntrySize *
        (field ((dirBlock.drop dxRootSize).take dxCountlimitSize) 2 2 - 1) ≤
        (((dirBlock.drop dxRootSize).drop dxCountlimitSize).drop 4).length := by
      rw [List.length_drop, List.length_drop, List.length_drop]; omega
    unfold dxHeader
    rw [readBytes_eq _ _ h32]
    simp only
    rw [readBytes_eq _ _ h4]
    simp only
    rw [readBytes_eq _ _ h4']
    simp only
    rw [dxEntryLoop_ok _ _ hent]
    simp only
    rw [if_pos h]

/-- A call of `read` leaves the filesystem and the inode of the reader as they are. -/
theorem read_preserves {sem : RangeVar} {depth : Nat} {inode inode' : Ext4InodeReader}
    {size : Int} {out : List Byte} (h : read sem depth inode size = .ok (out, inode')) :
    inode'.fs = inode.fs ∧ inode'.inode = inode.inode := by
  unfold read at h
  simp only at h
  repeat' (first
    | contradiction
    | (simp only [Except.ok.injEq, Prod.mk.injEq] at h
       obtain ⟨-, h⟩ := h
       subst h
       exact ⟨rfl, rfl⟩)
    | split at h)

/-! ## The flags of the inode and the linear scan -/

/-- The extent lookup uses, of the inode, the array `Block` only. -/
theorem physicalLoc_congr (sem : RangeVar) (fs : Ext4FS) (inode inode' : ext4Inode)
    (blockOffset : Int) (hblock : inode.Block = inode'.Block) :
    ∀ (fuel : Nat) (input : Option (List Byte)),
      physicalLoc sem fuel fs inode blockOffset input =
        physicalLoc sem fuel fs inode' blockOffset input := by
  intro fuel
  induction fuel with
  | zero => intro input; rfl
  | succ fuel ih =>
    intro input
    have hnode : nodeBytes inode input = nodeBytes inode' input := by
      cases input with
      | none => simp only [nodeBytes, hblock]
      | some s => rfl
    rw [physicalLoc, physicalLoc, hnode]
    simp only [ih]

/-- The method `read` does not look at the flags of the inode. -/
theorem read_setFlags (sem : RangeVar) (depth : Nat) (flags : Nat) (inode : Ext4InodeReader)
    (size : Int) :
    read sem depth (setFlags flags inode) size =
      match read sem depth inode size with
      | .error e => .error e
      | .ok (out, inode') => .ok (out, setFlags flags inode') := by
  have hloc : ∀ bo, physicalLoc sem depth inode.fs { inode.inode with Flags := flags } bo none =
      physicalLoc sem depth inode.fs inode.inode bo none :=
    fun bo => physicalLoc_congr sem inode.fs { inode.inode with Flags := flags } inode.inode bo
      rfl depth none
  unfold read
  simp only [setFlags, fileSize, hloc]
  repeat' (first | rfl | split)

/-- The loop over the blocks of a directory does not look at the flags of the
inode. -/
theorem listDirLoop_setFlags (sem : RangeVar) (depth : Nat) (flags : Nat) :
    ∀ (fuel : Nat) (inode : Ext4InodeReader) (dirBlock : List Byte)
      (dirEntries : List ext4DirEntry2Go),
      listDirLoop sem depth fuel (setFlags flags inode) dirBlock dirEntries =
        match listDirLoop sem depth fuel inode dirBlock dirEntries with
        | .error e => .error e
        | .ok (entries, inode') => .ok (entries, setFlags flags inode') := by
  intro fuel
  induction fuel with
  | zero => intro inode dirBlock dirEntries; rfl
  | succ fuel ih =>
    intro inode dirBlock dirEntries
    rw [listDirLoop, listDirLoop]
    by_cases hlen : dirBlock.length = 0
    · rw [if_pos hlen, if_pos hlen]
    · rw [if_neg hlen, if_neg hlen]
      cases hb : dirBlockLoop dirBlock.length dirBlock dirEntries with
      | error e => rfl
      | ok entries =>
        simp only
        have hfs : (setFlags flags inode).fs = inode.fs := rfl
        rw [hfs, read_setFlags]
        cases hr : read sem depth inode inode.fs.blockSize with
        | error e => rfl
        | ok p =>
          obtain ⟨blk, inode'⟩ := p
          simp only
          exact ih inode' blk entries

/-- The entries of `listDir` when the index header is accepted or not looked at:
those of the loop over the blocks, started with the first block. -/
theorem listDir_of_header_ok (sem : RangeVar) (depth fuel : Nat)
    (inode inode' : Ext4InodeReader) (dirBlock : List Byte)
    (hdir : inode.inode.Mode &&& S_IFDIR ≠ 0)
    (hread : read sem depth inode inode.fs.blockSize = .ok (dirBlock, inode'))
    (hhdr : inode.inode.Flags &&& EXT4_INDEX_FL > 0 → dxHeader dirBlock = .ok ()) :
    listDir sem depth fuel inode = listDirLoop sem depth fuel inode' dirBlock [] := by
  obtain ⟨-, hino⟩ := read_preserves hread
  unfold listDir
  rw [if_neg hdir, hread]
  simp only [hino]
  by_cases hf : inode.inode.Flags &&& EXT4_INDEX_FL > 0
  · rw [if_pos hf, hhdr hf]
  · rw [if_neg hf]

/-! ## The fields `max` and `depth` of an extent header -/

theorem putLE_length : ∀ (n v : Nat), (putLE n v).length = n := by
  intro n
  induction n with
  | zero => intro v; rfl
  | succ n ih => intro v; rw [putLE, List.length_cons, ih]

theorem encodeBlock_length (block : List Nat) : (encodeBlock block).length = 4 * block.length := by
  unfold encodeBlock
  induction block with
  | nil => rfl
  | cons w ws ih =>
    rw [List.flatMap_cons, List.length_append, putLE_length, ih, List.length_cons]
    ring

theorem readExtentHeader_ok {input : List Byte} {hdr : ext4ExtentHeader} {rest : List Byte}
    (h : readExtentHeader input = .ok (hdr, rest)) :
    extentRecordSize ≤ input.length ∧ hdr = decodeExtentHeader (input.take extentRecordSize) ∧
      rest = input.drop extentRecordSize := by
  unfold readExtentHeader readBytes at h
  split_ifs at h with hlt
  simp only [Except.ok.injEq, Prod.mk.injEq] at h
  exact ⟨by omega, h.1.symm, h.2.symm⟩

/-- With a reader of its own, `physicalLoc` does not look at the inode. -/
theorem physicalLoc_some_congr (sem : RangeVar) (fs : Ext4FS) (inode inode' : ext4Inode)
    (target : Int) :
    ∀ (fuel : Nat) (s : List Byte),
      physicalLoc sem fuel fs inode target (some s) =
        physicalLoc sem fuel fs inode' target (some s) := by
  intro fuel
  induction fuel with
  | zero => intro s; rfl
  | succ fuel ih =>
    intro s
    rw [physicalLoc, physicalLoc]
    simp only [nodeBytes, ih]

/-- The header fields that `physicalLoc` uses, and the bytes after the header, are
those of the bytes 0 to 3 and of the bytes from 6 on of the node. -/
theorem readExtentHeader_max_irrelevant (b b' : List Byte)
    (htake : b.take 4 = b'.take 4) (hdrop : b.drop 6 = b'.drop 6) :
    (readExtentHeader b = .error .io ∧ readExtentHeader b' = .error .io) ∨
    ∃ hdr hdr' rest, readExtentHeader b = .ok (hdr, rest) ∧
      readExtentHeader b' = .ok (hdr', rest) ∧ hdr.Magic = hdr'.Magic ∧
      hdr.Entries = hdr'.Entries ∧ hdr.Depth = hdr'.Depth := by
  have hlen : b.length - 6 = b'.length - 6 := by
    rw [← List.length_drop, ← List.length_drop, hdrop]
  by_cases hshort : b.length < extentRecordSize
  · left
    have hshort' : b'.length < extentRecordSize := by
      unfold extentRecordSize at *
      omega
    unfold readExtentHeader
    rw [readBytes_short _ _ hshort, readBytes_short _ _ hshort']
    exact ⟨rfl, rfl⟩
  · right
    have hlong : extentRecordSize ≤ b.length := by omega
    have hlong' : extentRecordSize ≤ b'.length := by
      unfold extentRecordSize at *
      omega
    refine ⟨decodeExtentHeader (b.take extentRecordSize),
      decodeExtentHeader (b'.take extentRecordSize), b.drop extentRecordSize, ?_, ?_, ?_, ?_, ?_⟩
    · unfold readExtentHeader
      rw [readBytes_eq _ _ hlong]
    · unfold readExtentHeader
      rw [readBytes_eq _ _ hlong']
      have : b'.drop extentRecordSize = b.drop extentRecordSize := by
        have h6 : ∀ l : List Byte, l.drop extentRecordSize = (l.drop 6).drop 6 := by
          intro l
          rw [List.drop_drop]
          rfl
        rw [h6 b, h6 b', hdrop]
      rw [this]
    · have h2 : ∀ l : List Byte, field (l.take extentRecordSize) 0 2 = le ((l.take 4).take 2) := by
        intro l
        unfold field extentRecordSize
        rw [List.drop_zero, List.take_take, List.take_take]
        rfl
      show field (b.take extentRecordSize) 0 2 = field (b'.take extentRecordSize) 0 2
      rw [h2 b, h2 b', htake]
    · have h2 : ∀ l : List Byte,
          field (l.take extentRecordSize) 2 2 = le (((l.take 4).drop 2).take 2) := by
        intro l
        unfold field extentRecordSize
        rw [List.drop_take, List.drop_take, List.take_take, List.take_take]
        rfl
      show field (b.take extentRecordSize) 2 2 = field (b'.take extentRecordSize) 2 2
      rw [h2 b, h2 b', htake]
    · have h2 : ∀ l : List Byte,
          field (l.take extentRecordSize) 6 2 = le ((l.drop 6).take 2) := by
        intro l
        unfold field extentRecordSize
        rw [List.drop_take, List.take_take]
        rfl
      show field (b.take extentRecordSize) 6 2 = field (b'.take extentRecordSize) 6 2
      rw [h2 b, h2 b', hdrop]

/-! ## The recursion of `physicalLoc` -/

theorem leafLoop_ne_fuel (target : Int) (recs : List ext4Extent) :
    leafLoop target recs ≠ .error .fuel := by
  induction recs with
  | nil => simp [leafLoop]
  | cons r rs ih =>
    unfold leafLoop
    split_ifs
    · simp
    · simp
    · exact ih

theorem readExtentHeader_error {input : List Byte} {e : Err}
    (h : readExtentHeader input = .error e) : e = .io := by
  unfold readExtentHeader at h
  cases hr : readBytes extentRecordSize input with
  | error e' =>
    rw [hr] at h
    simp only [Except.error.injEq] at h
    rw [← h]
    exact readBytes_error hr
  | ok p => rw [hr] at h; simp at h

theorem seek_error {dev : List Byte} {pos : Int} {e : Err}
    (h : seek dev pos = .error e) : e = .io := by
  unfold seek at h
  split_ifs at h
  simp only [Except.error.injEq] at h
  exact h.symm

/-- A call of `physicalLoc` that reaches its recursive call is the recursive call. -/
theorem physicalLoc_descend (sem : RangeVar) (fuel : Nat) (fs : Ext4FS) (inode : ext4Inode)
    (target : Int) (input : Option (List Byte)) (s : List Byte)
    (h : childNode sem fs target (nodeBytes inode input) = some s) :
    physicalLoc sem (fuel + 1) fs inode target input =
      physicalLoc sem fuel fs inode target (some s) := by
  rw [physicalLoc]
  unfold childNode at h
  repeat' (first
    | contradiction
    | (simp only [Option.some.injEq] at h
       subst h)
    | split at h)
  simp_all

/-- A call of `physicalLoc` that does not reach its recursive call ends by itself,
with a result or a panic. -/
theorem physicalLoc_no_descent (sem : RangeVar) (fs : Ext4FS) (inode : ext4Inode)
    (target : Int) (input : Option (List Byte))
    (h : childNode sem fs target (nodeBytes inode input) = none) :
    (∀ fuel, physicalLoc sem (fuel + 1) fs inode target input =
      physicalLoc sem 1 fs inode target input) ∧
    physicalLoc sem 1 fs inode target input ≠ .error .fuel := by
  unfold childNode at h
  constructor
  · intro fuel
    rw [physicalLoc, physicalLoc]
    repeat' (first | contradiction | rfl | split at h)
    all_goals simp_all
  · rw [physicalLoc]
    repeat' (first | contradiction | split at h)
    all_goals simp_all
    · intro hf
      subst hf
      have hio := readExtentHeader_error (by assumption)
      contradiction
    · intro hf
      subst hf
      have hio := readRecords_error _ _ _ (by assumption)
      contradiction
    · intro hf
      subst hf
      have hio := seek_error (by assumption)
      contradiction
    · split
      · intro hf
        simp only [Except.error.injEq] at hf
        subst hf
        have hio := readRecords_error _ _ _ (by assumption)
        contradiction
      · exact leafLoop_ne_fuel _ _

theorem childNode_depth_pos {sem : RangeVar} {fs : Ext4FS} {target : Int} {node s : List Byte}
    (h : childNode sem fs target node = some s) : 0 < headerDepth node := by
  unfold childNode at h
  unfold headerDepth
  repeat' (first | contradiction | assumption | split at h)

/-- When the depths decrease along the walk, a fuel of one more than a bound of the
depth of the node is enough, and more fuel gives the same result. -/
theorem physicalLoc_fuel_enough (sem : RangeVar) (fs : Ext4FS) (inode : ext4Inode)
    (target : Int) :
    ∀ (budget : Nat) (input : Option (List Byte)),
      headerDepth (nodeBytes inode input) ≤ budget →
      depthsDecrease sem fs target budget (nodeBytes inode input) = true →
      (∀ fuel, budget + 1 ≤ fuel →
        physicalLoc sem fuel fs inode target input =
          physicalLoc sem (budget + 1) fs inode target input) ∧
      physicalLoc sem (budget + 1) fs inode target input ≠ .error .fuel := by
  intro budget
  induction budget with
  | zero =>
    intro input hdepth _
    have hnone : childNode sem fs target (nodeBytes inode input) = none := by
      cases hc : childNode sem fs target (nodeBytes inode input) with
      | none => rfl
      | some s =>
        have := childNode_depth_pos hc
        omega
    obtain ⟨h1, h2⟩ := physicalLoc_no_descent sem fs inode target input hnone
    refine ⟨?_, h2⟩
    intro fuel hfuel
    obtain ⟨k, rfl⟩ : ∃ k, fuel = k + 1 := ⟨fuel - 1, by omega⟩
    exact h1 k
  | succ budget ih =>
    intro input hdepth hdec
    cases hc : childNode sem fs target (nodeBytes inode input) with
    | none =>
      obtain ⟨h1, h2⟩ := physicalLoc_no_descent sem fs inode target input hc
      refine ⟨?_, by rw [h1]; exact h2⟩
      intro fuel hfuel
      obtain ⟨k, rfl⟩ : ∃ k, fuel = k + 1 := ⟨fuel - 1, by omega⟩
      rw [h1 k, h1 (budget + 1)]
    | some s =>
      rw [depthsDecrease, hc] at hdec
      simp only [Bool.and_eq_true, decide_eq_true_eq] at hdec
      obtain ⟨hlt, hrec⟩ := hdec
      obtain ⟨h1, h2⟩ := ih (some s) (by show headerDepth s ≤ budget; omega) hrec
      refine ⟨?_, ?_⟩
      · intro fuel hfuel
        obtain ⟨k, rfl⟩ : ∃ k, fuel = k + 1 := ⟨fuel - 1, by omega⟩
        rw [physicalLoc_descend sem k fs inode target input s hc,
          physicalLoc_descend sem (budget + 1) fs inode target input s hc]
        exact h1 k (by omega)
      · rw [physicalLoc_descend sem (budget + 1) fs inode target input s hc]
        exact h2

/-- On the device `cyclicDev` the call of `physicalLoc` on block 2 descends into
block 2 again, so no fuel is enough. -/
theorem physicalLoc_cyclic (sem : RangeVar) :
    ∀ fuel, physicalLoc sem fuel cyclicFs cyclicInode 0 (some (cyclicDev.drop 2048)) =
      .error .fuel := by
  have hc : childNode sem cyclicFs 0 (nodeBytes cyclicInode (some (cyclicDev.drop 2048))) =
      some (cyclicDev.drop 2048) := by
    cases sem <;> decide!
  intro fuel
  induction fuel with
  | zero => rfl
  | succ fuel ih =>
    rw [physicalLoc_descend sem fuel cyclicFs cyclicInode 0 _ _ hc]
    exact ih

/-! ## The records of a directory block -/

theorem le_putLE : ∀ (n v : Nat), v < 256 ^ n → le (putLE n v) = v := by
  intro n
  induction n with
  | zero => intro v hv; simp at hv; subst hv; rfl
  | succ n ih =>
    intro v hv
    have hdiv : v / 256 < 256 ^ n := by
      rw [Nat.div_lt_iff_lt_mul (by norm_num)]
      rw [pow_succ] at hv
      exact hv
    rw [putLE, le, ih _ hdiv]
    show v % 256 + 256 * (v / 256) = v
    exact Nat.mod_add_div v 256

theorem readBytes_append (n : Nat) (l rest : List Byte) (h : l.length = n) :
    readBytes n (l ++ rest) = .ok (l, rest) := by
  rw [readBytes_eq _ _ (by rw [List.length_append]; omega), ← h, List.take_left, List.drop_left]

theorem DirRecord.bytes_length (r : DirRecord) (hwf : r.WellFormed) :
    r.bytes.length = r.RecLen := by
  obtain ⟨-, -, -, -, hname, hrec⟩ := hwf
  unfold DirRecord.bytes
  simp only [List.length_append, putLE_length]
  omega

/-- One iteration of the loop over a block, on the bytes of a record followed by
`rest`: the read of the padding fails when the record has no padding and nothing
follows it; else a record with inode 0 ends the block, and any other record is
appended. -/
theorem dirBlockLoop_step (fuel : Nat) (r : DirRecord) (rest : List Byte)
    (dirEntries : List ext4DirEntry2Go) (hwf : r.WellFormed) :
    dirBlockLoop (fuel + 1) (r.bytes ++ rest) dirEntries =
      if r.Pad = [] ∧ rest = [] then .error .io
      else if r.Inode = 0 then .ok dirEntries
      else dirBlockLoop fuel rest (dirEntries ++ [r.entry]) := by
  have hlen := DirRecord.bytes_length r hwf
  obtain ⟨hino, hrl, hnl, hft, hname, hrec⟩ := hwf
  have hne : ¬ (r.bytes ++ rest).length = 0 := by
    rw [List.length_append, hlen]
    omega
  rw [dirBlockLoop, if_neg hne]
  unfold DirRecord.bytes
  simp only [List.append_assoc]
  rw [readBytes_append 4 _ _ (putLE_length 4 _)]
  simp only
  rw [readBytes_append 2 _ _ (putLE_length 2 _)]
  simp only
  rw [readBytes_append 1 _ _ (putLE_length 1 _)]
  simp only
  rw [readBytes_append 1 _ _ (putLE_length 1 _)]
  simp only
  rw [le_putLE 4 _ (by norm_num; exact hino), le_putLE 2 _ (by norm_num; exact hrl),
    le_putLE 1 _ (by norm_num; exact hnl), le_putLE 1 _ (by norm_num; exact hft)]
  rw [readBytes_append r.NameLen _ _ hname]
  simp only
  have hnn : ¬ (((r.RecLen : Int) - (r.NameLen : Int) - 8) < 0) := by omega
  rw [if_neg hnn]
  have hpad : r.RecLen - r.NameLen - 8 = r.Pad.length := by omega
  unfold bytesReaderRead
  rw [hpad, List.drop_left]
  by_cases hp : r.Pad = [] ∧ rest = []
  · rw [if_pos hp]
    obtain ⟨h1, h2⟩ := hp
    rw [h1, h2]
    rfl
  · rw [if_neg hp]
    have hlen0 : ¬ (r.Pad ++ rest).length = 0 := by
      intro h0
      rw [List.length_eq_zero, List.append_eq_nil] at h0
      exact hp h0
    rw [if_neg hlen0]
    rfl

theorem dirBlockLoop_prefix : ∀ (pre : List DirRecord) (fuel : Nat) (rest : List Byte)
    (dirEntries : List ext4DirEntry2Go),
    (∀ r ∈ pre, r.WellFormed ∧ r.Inode ≠ 0) → rest ≠ [] →
    dirBlockLoop (fuel + pre.length) (pre.flatMap DirRecord.bytes ++ rest) dirEntries =
      dirBlockLoop fuel rest (dirEntries ++ pre.map DirRecord.entry) := by
  intro pre
  induction pre with
  | nil => intro fuel rest dirEntries _ _; simp
  | cons r pre ih =>
    intro fuel rest dirEntries hpre hrest
    have hr := hpre r (by simp)
    have hrest' : ¬ (r.Pad = [] ∧ pre.flatMap DirRecord.bytes ++ rest = []) := by
      intro h
      exact hrest (List.append_eq_nil.1 h.2).2
    rw [List.flatMap_cons, List.append_assoc, List.length_cons, ← Nat.add_assoc,
      dirBlockLoop_step _ r _ _ hr.1, if_neg hrest', if_neg hr.2,
      ih fuel rest _ (fun x hx => hpre x (by simp [hx])) hrest]
    simp

theorem DirRecord.bytes_ne_nil (r : DirRecord) : r.bytes ≠ [] := by
  intro h
  have hlen : r.bytes.length = 0 := by rw [h]; rfl
  unfold DirRecord.bytes at hlen
  simp only [List.length_append, putLE_length] at hlen
  omega

theorem DirRecord.length_le_bytes (recs : List DirRecord) :
    8 * recs.length ≤ (recs.flatMap DirRecord.bytes).length := by
  induction recs with
  | nil => simp
  | cons r rs ih =>
    have h8 : 8 ≤ r.bytes.length := by
      unfold DirRecord.bytes
      simp only [List.length_append, putLE_length]
      omega
    rw [List.flatMap_cons, List.length_append, List.length_cons]
    omega

/-- The loop of `listDir` over a block that is tiled by well-formed records, run as
`listDir` runs it. The lengths `rec_len` of the records add up to the length of the
block. When the records before a first record with inode 0 are decoded, they are
the result, in their order, unless that record has no padding and ends the block;
when no record has inode 0, all records are the result, unless the last one has no
padding; in both exceptions the read of the empty padding from the exhausted reader
fails and the loop panics. -/
theorem dirBlockLoop_records (recs : List DirRecord) (hwf : ∀ r ∈ recs, r.WellFormed) :
    (recs.flatMap DirRecord.bytes).length = (recs.map DirRecord.RecLen).sum ∧
    (∀ pre z post, recs = pre ++ z :: post → (∀ r ∈ pre, r.Inode ≠ 0) → z.Inode = 0 →
      ¬ (z.Pad = [] ∧ post = []) →
      dirBlockLoop (recs.flatMap DirRecord.bytes).length (recs.flatMap DirRecord.bytes) [] =
        .ok (pre.map DirRecord.entry)) ∧
    (∀ pre last, recs = pre ++ [last] → (∀ r ∈ recs, r.Inode ≠ 0) → last.Pad ≠ [] →
      dirBlockLoop (recs.flatMap DirRecord.bytes).length (recs.flatMap DirRecord.bytes) [] =
        .ok (recs.map DirRecord.entry)) ∧
    (∀ pre last, recs = pre ++ [last] → (∀ r ∈ pre, r.Inode ≠ 0) → last.Pad = [] →
      dirBlockLoop (recs.flatMap DirRecord.bytes).length (recs.flatMap DirRecord.bytes) [] =
        .error .io) := by
  have hsplit : ∀ pre z post, recs = pre ++ z :: post → (∀ r ∈ pre, r.Inode ≠ 0) →
      ∃ fuel, dirBlockLoop (recs.flatMap DirRecord.bytes).length
          (recs.flatMap DirRecord.bytes) [] =
        dirBlockLoop (fuel + 1 + 1) (z.bytes ++ post.flatMap DirRecord.bytes)
          (pre.map DirRecord.entry) := by
    intro pre z post hrecs hpre
    have hlen := DirRecord.length_le_bytes recs
    have hrl : recs.length = pre.length + (post.length + 1) := by
      rw [hrecs, List.length_append, List.length_cons]
    obtain ⟨fuel, hfuel⟩ : ∃ fuel, (recs.flatMap DirRecord.bytes).length =
        (fuel + 1 + 1) + pre.length :=
      ⟨(recs.flatMap DirRecord.bytes).length - pre.length - 2, by omega⟩
    refine ⟨fuel, ?_⟩
    rw [hfuel, hrecs, List.flatMap_append, List.flatMap_cons,
      dirBlockLoop_prefix pre _ _ []
        (fun r hr => ⟨hwf r (by rw [hrecs]; simp [hr]), hpre r hr⟩)
        (by
          intro h
          exact DirRecord.bytes_ne_nil z (List.append_eq_nil.1 h).1)]
    simp
  refine ⟨?_, ?_, ?_, ?_⟩
  · clear hsplit
    induction recs with
    | nil => rfl
    | cons r rs ih =>
      rw [List.flatMap_cons, List.length_append, List.map_cons, List.sum_cons,
        DirRecord.bytes_length r (hwf r (by simp)), ih (fun x hx => hwf x (by simp [hx]))]
  · intro pre z post hrecs hpre hz hpacked
    obtain ⟨fuel, hfuel⟩ := hsplit pre z post hrecs hpre
    have hpacked' : ¬ (z.Pad = [] ∧ post.flatMap DirRecord.bytes = []) := by
      intro h
      apply hpacked
      refine ⟨h.1, ?_⟩
      cases post with
      | nil => rfl
      | cons p ps =>
        have h2 := h.2
        rw [List.flatMap_cons] at h2
        exact absurd (List.append_eq_nil.1 h2).1 (DirRecord.bytes_ne_nil p)
    rw [hfuel, dirBlockLoop_step _ z _ _ (hwf z (by rw [hrecs]; simp)), if_neg hpacked',
      if_pos hz]
  · intro pre last hrecs hall hpad
    have hpre : ∀ r ∈ pre, r.Inode ≠ 0 := fun r hr => hall r (by rw [hrecs]; simp [hr])
    obtain ⟨fuel, hfuel⟩ := hsplit pre last [] hrecs hpre
    have hpacked : ¬ (last.Pad = [] ∧ ([] : List DirRecord).flatMap DirRecord.bytes = []) :=
      fun h => hpad h.1
    rw [hfuel, dirBlockLoop_step _ last _ _ (hwf last (by rw [hrecs]; simp)), if_neg hpacked,
      if_neg (hall last (by rw [hrecs]; simp)), hrecs]
    simp [dirBlockLoop]
  · intro pre last hrecs hpre hpad
    obtain ⟨fuel, hfuel⟩ := hsplit pre last [] hrecs hpre
    rw [hfuel, dirBlockLoop_step _ last _ _ (hwf last (by rw [hrecs]; simp)),
      if_pos ⟨hpad, rfl⟩]

/-! ## A volume with two group descriptors of 32 bytes -/

theorem twoGroupImage_volume :
    Except.map (fun fs => (fs.superBlock.Feature_incompat &&& EXT4_FEATURE_INCOMPAT_64BIT,
        fs.blockSize, fs.groupDescSize, groupDescAddr fs 0))
      (readSuperBlock (twoGroupImage 9)) = .ok (0, 1024, 32, 2048) := by
  decide!

theorem twoGroupImage_descriptor :
    ((twoGroupImage 0).drop 2048).take 32 = ((twoGroupImage 9).drop 2048).take 32 := by
  decide!

theorem twoGroupImage_table_zero :
    Except.bind (readSuperBlock (twoGroupImage 0))
      (fun fs => Except.map inodeTableLoc (readGroupDesc fs 0)) = .ok 3 := by
  decide!

theorem twoGroupImage_table_nine :
    Except.bind (readSuperBlock (twoGroupImage 9))
      (fun fs => Except.map inodeTableLoc (readGroupDesc fs 0)) = .ok (3 + 9 * 2 ^ 32) := by
  decide!

theorem twoGroupImage_readFile_zero :
    readFile .shared 1 2 (twoGroupImage 0) [47, 104, 101, 108, 108, 111] =
      .ok [104, 101, 108, 108, 111] := by
  decide!

theorem twoGroupImage_readFile_nine :
    readFile .shared 1 2 (twoGroupImage 9) [47, 104, 101, 108, 108, 111] = .error .io := by
  decide!

/-- The descriptor that `readGroupDesc` returns is decoded from the
`groupDescStructSize = 64` bytes at its address, whatever `groupDescSize` is. -/
theorem readGroupDesc_reads_struct (ext4fs : Ext4FS) (blockGroupNum : Int)
    (hbs : ext4fs.blockSize ≠ 0) (haddr : 0 ≤ groupDescAddr ext4fs blockGroupNum)
    (hlen : (groupDescAddr ext4fs blockGroupNum).toNat + groupDescStructSize ≤
      ext4fs.dev.length) :
    readGroupDesc ext4fs blockGroupNum =
      .ok { raw := List.take groupDescStructSize
              (ext4fs.dev.drop (groupDescAddr ext4fs blockGroupNum).toNat) } := by
  unfold readGroupDesc seek
  rw [if_neg hbs, if_neg (by omega)]
  simp only
  rw [readBytes_eq _ _ (by rw [List.length_drop]; omega)]

/-! ## The claims -/

/-- C2: for a depth-0 extent node (a node whose header decodes with depth 0) and a
target logical block, an extent returned by `physicalLoc` covers the target
(`Block <= target < Block + Len`) and is the first record of the node, in on-disk
order, that does so; and when no record of the node covers the target,
`physicalLoc` fails with a panic instead of returning an extent. -/
theorem physicalLoc_leaf_first_covering (sem : RangeVar) (fuel : Nat) (fs : Ext4FS)
    (inode : ext4Inode) (target : Int) (input : Option (List Byte)) (hdr : ext4ExtentHeader)
    (rest : List Byte) (hh : readExtentHeader (nodeBytes inode input) = .ok (hdr, rest))
    (hd : hdr.Depth = 0) :
    (∀ e, physicalLoc sem (fuel + 1) fs inode target input = .ok e →
      Covers e target ∧
      ∃ pre post, nodeExtents hdr rest = pre ++ e :: post ∧ ∀ r ∈ pre, ¬ Covers r target) ∧
    ((∀ r ∈ nodeExtents hdr rest, ¬ Covers r target) →
      ∃ err, err ≠ .fuel ∧ physicalLoc sem (fuel + 1) fs inode target input = .error err) := by
  rw [physicalLoc_leaf_eq sem fuel fs inode target input hdr rest hh hd]
  by_cases hm : hdr.Magic ≠ EXT4_EXT_MAGIC
  · rw [if_pos hm]
    exact ⟨fun e h => by simp at h, fun _ => ⟨.extentMagic, by decide, rfl⟩⟩
  · rw [if_neg hm]
    cases hr : readRecords decodeExtent hdr.Entries rest with
    | error e =>
      have := readRecords_error _ _ _ hr
      subst this
      exact ⟨fun e h => by simp at h, fun _ => ⟨.io, by decide, rfl⟩⟩
    | ok p =>
      obtain ⟨leafNodes, rest'⟩ := p
      have hrecs : leafNodes = nodeExtents hdr rest := readRecords_ok _ _ _ hr
      subst hrecs
      exact ⟨fun e h => leafLoop_ok h, fun h => ⟨.noExtent, by decide, leafLoop_none h⟩⟩

/-- Witness of `physicalLoc_leaf_first_covering`: the inline root of `fileInode`
is a depth-0 node, and the lookup of block 1 returns its extent, which covers 1. -/
theorem physicalLoc_leaf_first_covering_witness :
    physicalLoc .shared 1 smallFs fileInode 1 none
        = .ok { Block := 0, Len := 2, Start_hi := 0, Start_lo := 2 } ∧
      Covers { Block := 0, Len := 2, Start_hi := 0, Start_lo := 2 } 1 :=
  ⟨by decide,
    ((physicalLoc_leaf_first_covering .shared 0 smallFs fileInode 1 none
      { Magic := 0xF30A, Entries := 1, Max := 4, Depth := 0, Generation := 0 }
      (encodeBlock (fileInode.Block.drop 3)) (by decide) (by decide)).1
      { Block := 0, Len := 2, Start_hi := 0, Start_lo := 2 } (by decide)).1⟩

/-- C6 (evaluation at the failing input): `fileInode` has 1500 bytes. With the offset
set to 1501, `read(100)` finds the extent of block 1, computes the length
`1500 - 1501 = -1` and panics in `make`, and so does `Ext4FuseFile.Read` for a
request at offset 1501; with the offset set to 5000, past the mapped blocks,
`read(100)` panics in the extent lookup. No call returns an empty result. -/
theorem read_past_end_panics :
    read .shared 1 ⟨smallFs, fileInode, 1501⟩ 100 = .error .makeslice ∧
      Ext4FuseFile.Read .shared 1 3 ⟨smallFs, fileInode, 0⟩ 1501 100 = .error .makeslice ∧
      read .shared 1 ⟨smallFs, fileInode, 5000⟩ 100 = .error .noExtent ∧
      fileSize fileInode = 1500 := by
  decide!

/-- C7 (evaluation at the failing input): the only extent of `uninitInode` has the
length field `0x8001 = 32769 >= 32768`. `physicalLoc` returns this extent for the
target 0, and `read(8)` returns 8 bytes of the device. -/
theorem physicalLoc_returns_uninitialized_extent :
    physicalLoc .shared 1 smallFs uninitInode 0 none
        = .ok { Block := 0, Len := 32769, Start_hi := 0, Start_lo := 2 } ∧
      read .shared 1 ⟨smallFs, uninitInode, 0⟩ 8
        = .ok ([7, 7, 7, 7, 7, 7, 7, 7], ⟨smallFs, uninitInode, 8⟩) := by
  decide!

/-- C8 (evaluation at the failing input): `image` is an image on which the path
`/hello` resolves and gives the 5 bytes of the file; on the same image the path `/`
does not resolve to the root inode: its one path element is the empty name, which is
looked up in the root directory and not found. -/
theorem resolve_slash_not_found :
    readFile .shared 1 2 image [47, 104, 101, 108, 108, 111] = .ok [104, 101, 108, 108, 111] ∧
      rootEntries .shared 1 2 image = .ok imageRootEntries ∧
      pathElems [47] = [[]] ∧
      resolve .shared 1 2 image [47] = .error .notFound := by
  decide!

/-- C9: for a listing `dirEntries` that `listDir` returned and a path segment, the
step of `readFile` fails with `not found` exactly when no listed entry has a name
equal to the segment; otherwise the number of the next inode is the inode field of a
listed entry with that name (the last one in the listing), hence of the entry with
that name when there is only one. -/
theorem pathStep_of_listDir (sem : RangeVar) (depth fuel : Nat) (inode inode' : Ext4InodeReader)
    (dirEntries : List ext4DirEntry2Go) (pathElem : List Byte)
    (h : listDir sem depth fuel inode = .ok (dirEntries, inode')) :
    (pathStep dirEntries pathElem = .error .notFound ↔ ∀ e ∈ dirEntries, e.Name ≠ pathElem) ∧
    (∀ err, pathStep dirEntries pathElem = .error err → err = .notFound) ∧
    (∀ nr, pathStep dirEntries pathElem = .ok nr →
      ∃ e ∈ dirEntries, e.Name = pathElem ∧ e.Inode = nr) ∧
    (∀ e ∈ dirEntries, e.Name = pathElem →
      (∀ x ∈ dirEntries, x.Name = pathElem → x = e) → pathStep dirEntries pathElem = .ok e.Inode) :=
  pathStep_spec dirEntries pathElem
    (listDir_inode_ne_zero sem depth fuel inode inode' dirEntries h)

/-- Witness of `pathStep_of_listDir`: the listing of `dirInode`
(a directory with the entries of the root directory of `image`)
has one entry named `hello`, with inode 12, and the step for `hello` gives 12. -/
theorem pathStep_of_listDir_witness :
    listDir .shared 1 2 ⟨dirFs, dirInode, 0⟩ = .ok (imageRootEntries, ⟨dirFs, dirInode, 64⟩) ∧
      pathStep imageRootEntries [104, 101, 108, 108, 111] = .ok 12 :=
  ⟨by decide!,
    (pathStep_of_listDir .shared 1 2 ⟨dirFs, dirInode, 0⟩ ⟨dirFs, dirInode, 64⟩ imageRootEntries
      [104, 101, 108, 108, 111] (by decide!)).2.2.2
      { Inode := 12, RecLen := 40, NameLen := 5, FileType := 1, Name := [104, 101, 108, 108, 111] }
      (by decide) (by decide) (by decide)⟩

/-- C10: for an image whose superblock is read and passes the magic check and the
checksum step, `readSuperBlock` rejects the image (it panics) if and only if
`feature_incompat` has a bit set that is not a bit of
`0x2 | 0x4 | 0x40 | 0x80 | 0x100 | 0x200 = 0x3C6`; the panic is then that of the
incompatible feature. -/
theorem readSuperBlock_rejects_iff (f raw rest : List Byte)
    (hread : readBytes superBlockSize (f.drop 1024) = .ok (raw, rest))
    (hmagic : ext4SuperBlock.Magic { raw := raw } = EXT4_SUPER_MAGIC)
    (hsum : superBlockChecksumStep { raw := raw } = .ok ()) :
    ((∃ err, readSuperBlock f = .error err) ↔
      ∃ i, (ext4SuperBlock.Feature_incompat { raw := raw }).testBit i = true ∧
        (0x3C6 : Nat).testBit i = false) ∧
    (∀ err, readSuperBlock f = .error err → err = .incompatFeature) ∧
    (0x2 ||| 0x4 ||| 0x40 ||| 0x80 ||| 0x100 ||| 0x200 : Nat) = 0x3C6 ∧
    expectedFlags = 0x3C6 := by
  have hlt : ext4SuperBlock.Feature_incompat { raw := raw } < 2 ^ 32 := by
    have := field_lt raw 0x60 4
    unfold ext4SuperBlock.Feature_incompat
    norm_num at this ⊢
    exact this
  have hiff := incompat_test_iff _ hlt
  have hseek : seek f SuperBlock0Offset = .ok (f.drop 1024) := by
    simp [seek, SuperBlock0Offset]
  have hm : ¬ (ext4SuperBlock.Magic { raw := raw } ≠ EXT4_SUPER_MAGIC) := by
    rw [hmagic]; simp
  have hrs : readSuperBlock f =
      if ext4SuperBlock.Feature_incompat { raw := raw } &&& (0xffffffff ^^^ expectedFlags) > 0 then
        .error .incompatFeature
      else
        .ok { dev := f, superBlock := { raw := raw },
              blockSize := toInt64 ((BLOCK_SIZE : Int) *
                2 ^ ext4SuperBlock.Log_block_size { raw := raw }),
              groupDescSize :=
                if ext4SuperBlock.Feature_incompat { raw := raw } &&&
                    EXT4_FEATURE_INCOMPAT_64BIT > 0 then
                  (ext4SuperBlock.Desc_size { raw := raw } : Int)
                else 32 } := by
    unfold readSuperBlock
    simp only [hseek, hread, hm, if_false, hsum]
  refine ⟨?_, ?_, by decide, expectedFlags_eq⟩
  · rw [← hiff, hrs]
    split_ifs with hc
    · exact ⟨fun _ => hc, fun _ => ⟨_, rfl⟩⟩
    · constructor
      · rintro ⟨err, herr⟩; contradiction
      · intro h; exact absurd h hc
  · intro err herr
    rw [hrs] at herr
    split_ifs at herr with hc
    · simp only [Except.error.injEq] at herr
      exact herr.symm

/-- Witness of `readSuperBlock_rejects_iff`: the superblock of `inlineDataImage`
passes the magic check and has checksum type 0; its `feature_incompat` is `0x8042`,
with bit 15 outside the accepted set, and `readSuperBlock` rejects the image. -/
theorem readSuperBlock_rejects_iff_witness :
    ext4SuperBlock.Feature_incompat { raw := superBlockBytes [0x42, 0x80, 0, 0] } = 0x8042 ∧
      ∃ err, readSuperBlock inlineDataImage = .error err :=
  ⟨by decide!,
    (readSuperBlock_rejects_iff inlineDataImage (superBlockBytes [0x42, 0x80, 0, 0]) []
      (by decide!) (by decide!) (by decide!)).1.2 ⟨15, by decide!, by decide⟩⟩

/-- C11: for an image whose superblock is read, has the magic `0xEF53` and the
checksum type 1, `readSuperBlock` passes the checksum step if and only if the stored
checksum equals `0xFFFFFFFF` XOR the CRC32C of the bytes of the superblock that
precede the checksum field (the first `0x3FC` bytes), and it panics with the
checksum error otherwise. In general `calcChecksum(prefix, data, n, seed)`, with
`n` at most the length of the encoding of `data`, is `seed` XOR the CRC32C of the
prefix followed by the first `n` bytes of the encoding, so that two encodings with
the same first `n` bytes have the same checksum. -/
theorem readSuperBlock_checksum_iff (f raw rest : List Byte)
    (hread : readBytes superBlockSize (f.drop 1024) = .ok (raw, rest))
    (hmagic : ext4SuperBlock.Magic { raw := raw } = 0xEF53)
    (htype : ext4SuperBlock.Checksum_type { raw := raw } = 1) :
    (superBlockChecksumStep { raw := raw } = .ok () ↔
      ext4SuperBlock.Checksum { raw := raw }
        = 0xFFFFFFFF ^^^ crc32c (raw.take superBlockChecksumOffset)) ∧
    (readSuperBlock f = .error .superChecksum ↔
      ext4SuperBlock.Checksum { raw := raw }
        ≠ 0xFFFFFFFF ^^^ crc32c (raw.take superBlockChecksumOffset)) ∧
    (∀ (pfx data : List Byte) (n seed : Nat), n ≤ data.length →
      calcChecksum pfx data n seed = .ok (seed ^^^ crc32c (pfx ++ data.take n)) ∧
      ∀ data' : List Byte, data'.take n = data.take n →
        calcChecksum pfx data' n seed = calcChecksum pfx data n seed) := by
  have hlen : raw.length = 1024 := readBytes_length hread
  have hcalc : calcChecksum [] raw superBlockChecksumOffset 0xffffffff
      = .ok (0xFFFFFFFF ^^^ crc32c (raw.take superBlockChecksumOffset)) := by
    rw [calcChecksum_eq [] raw _ _ (by rw [hlen]; decide), List.nil_append]
  have hstep : superBlockChecksumStep { raw := raw } =
      if 0xFFFFFFFF ^^^ crc32c (raw.take superBlockChecksumOffset)
          ≠ ext4SuperBlock.Checksum { raw := raw } then .error .superChecksum else .ok () := by
    unfold superBlockChecksumStep
    simp only [htype, hcalc]
    rfl
  have hseek : seek f SuperBlock0Offset = .ok (f.drop 1024) := by
    simp [seek, SuperBlock0Offset]
  have hm : ¬ (ext4SuperBlock.Magic { raw := raw } ≠ EXT4_SUPER_MAGIC) := by
    rw [hmagic]; simp [EXT4_SUPER_MAGIC]
  refine ⟨?_, ?_, ?_⟩
  · rw [hstep]
    split_ifs with hc
    · constructor
      · intro h; contradiction
      · intro h; exact absurd h.symm hc
    · constructor
      · intro _; exact (not_not.1 hc).symm
      · intro _; rfl
  · unfold readSuperBlock
    simp only [hseek, hread, hm, if_false, hstep]
    by_cases hc : 0xFFFFFFFF ^^^ crc32c (raw.take superBlockChecksumOffset)
        ≠ ext4SuperBlock.Checksum { raw := raw }
    · rw [if_pos hc]
      exact ⟨fun _ => Ne.symm hc, fun _ => rfl⟩
    · rw [if_neg hc]
      simp only
      constructor
      · intro h
        split_ifs at h
        cases h
      · intro h
        exact absurd (not_not.1 hc).symm h
  · intro pfx data n seed hn
    refine ⟨calcChecksum_eq pfx data n seed hn, ?_⟩
    intro data' htake
    have hn' : n ≤ data'.length := by
      have h1 : (data'.take n).length = (data.take n).length := by rw [htake]
      rw [List.length_take, List.length_take] at h1
      omega
    rw [calcChecksum_eq pfx data n seed hn, calcChecksum_eq pfx data' n seed hn', htake]

/-- Witness of `readSuperBlock_checksum_iff`: the superblock
`checksummedSuperBlock [186, 251, 216, 78]` has checksum type 1 and stores the
checksum `0x4ED8FBBA = 0xFFFFFFFF XOR 0xB1270445` of its first `0x3FC` bytes, and it
passes the checksum step; with the stored checksum 0 `readSuperBlock` panics. -/
theorem readSuperBlock_checksum_iff_witness :
    superBlockChecksumStep { raw := checksummedSuperBlock [186, 251, 216, 78] } = .ok () ∧
      readSuperBlock (zeros 1024 ++ checksummedSuperBlock [0, 0, 0, 0]) = .error .superChecksum :=
  ⟨(readSuperBlock_checksum_iff (zeros 1024 ++ checksummedSuperBlock [186, 251, 216, 78])
      (checksummedSuperBlock [186, 251, 216, 78]) [] (by decide!) (by decide!) (by decide!)).1.2
      (by rw [checksummedSuperBlock_crc]; decide!),
    (readSuperBlock_checksum_iff (zeros 1024 ++ checksummedSuperBlock [0, 0, 0, 0])
      (checksummedSuperBlock [0, 0, 0, 0]) [] (by decide!) (by decide!) (by decide!)).2.1.2
      (by rw [checksummedSuperBlock_crc]; decide!)⟩

/-- C12 (evaluation at the failing input): the block `packedBlock [97, 98, 99, 100]`
of 1024 bytes is tiled by three well-formed records with `rec_len` 12, 1000 and 12,
none with inode 0 and each with `rec_len >= 8 + name_len`; the last one has
`rec_len = 8 + name_len`. The claim gives the three entries; the loop over the block
panics on the read of the empty padding from the exhausted reader, and so does
`listDir`. With the name `abc`, one byte of padding, the three entries are
returned. -/
theorem listDir_panics_on_packed_last_record :
    (packedRecords [97, 98, 99, 100]).flatMap DirRecord.bytes = packedBlock [97, 98, 99, 100] ∧
      (∀ r ∈ packedRecords [97, 98, 99, 100],
        r.WellFormed ∧ r.Inode ≠ 0 ∧ 8 + r.NameLen ≤ r.RecLen) ∧
      (packedBlock [97, 98, 99, 100]).length = 1024 ∧
      ((packedRecords [97, 98, 99, 100]).map DirRecord.RecLen).sum = 1024 ∧
      dirBlockLoop 1024 (packedBlock [97, 98, 99, 100]) [] = .error .io ∧
      Except.map Prod.fst (listDir .shared 1 2 ⟨packedFs [97, 98, 99, 100], packedInode, 0⟩) =
        .error .io ∧
      Except.map Prod.fst (listDir .fresh 1 2 ⟨packedFs [97, 98, 99, 100], packedInode, 0⟩) =
        .error .io ∧
      (packedRecords [97, 98, 99]).flatMap DirRecord.bytes = packedBlock [97, 98, 99] ∧
      dirBlockLoop 1024 (packedBlock [97, 98, 99]) [] =
        .ok ((packedRecords [97, 98, 99]).map DirRecord.entry) := by
  refine ⟨by decide!, by decide!, by decide!, by decide!, by decide!, by decide!, by decide!,
    by decide!, by decide!⟩

/-- C13: for a directory inode with the flag `INDEX_FL` whose first block has
`indirect_levels > 0` in its `dx_root` header, `listDir` fails and returns no list
of entries: a read of the index header fails, or, when the header is complete, the
check of the levels panics. -/
theorem listDir_rejects_indirect_levels (sem : RangeVar) (depth fuel : Nat)
    (inode inode' : Ext4InodeReader) (dirBlock : List Byte)
    (hdir : inode.inode.Mode &&& S_IFDIR ≠ 0)
    (hflag : inode.inode.Flags &&& EXT4_INDEX_FL > 0)
    (hread : read sem depth inode inode.fs.blockSize = .ok (dirBlock, inode'))
    (hlev : field (dirBlock.take dxRootSize) dxIndirectLevelsOffset 1 > 0) :
    (listDir sem depth fuel inode = .error .io ∨
      listDir sem depth fuel inode = .error .indirectLevels) ∧
    (dxRootSize + dxCountlimitSize + 4 +
        dxEntrySize * (field ((dirBlock.drop dxRootSize).take dxCountlimitSize) 2 2 - 1)
      ≤ dirBlock.length → listDir sem depth fuel inode = .error .indirectLevels) := by
  obtain ⟨-, hino⟩ := read_preserves hread
  have hflag' : inode'.inode.Flags &&& EXT4_INDEX_FL > 0 := by rw [hino]; exact hflag
  have hl : listDir sem depth fuel inode =
      match dxHeader dirBlock with
      | .error e => .error e
      | .ok _ => listDirLoop sem depth fuel inode' dirBlock [] := by
    unfold listDir
    rw [if_neg hdir, hread]
    simp only [hflag', if_true]
  obtain ⟨h1, h2⟩ := dxHeader_levels_pos dirBlock hlev
  constructor
  · rcases h1 with h1 | h1
    · left; rw [hl, h1]
    · right; rw [hl, h1]
  · intro hlen
    rw [hl, h2 hlen]

/-- Witness of `listDir_rejects_indirect_levels`: the directory `dxInode 0x81000` on
`dxFs 1` has the flag `INDEX_FL` and a complete index header with
`indirect_levels = 1`, and `listDir` panics on the levels. -/
theorem listDir_rejects_indirect_levels_witness :
    (dxInode 0x81000).Flags &&& EXT4_INDEX_FL > 0 ∧
      listDir .shared 1 3 ⟨dxFs 1, dxInode 0x81000, 0⟩ = .error .indirectLevels :=
  ⟨by decide,
    (listDir_rejects_indirect_levels .shared 1 3 ⟨dxFs 1, dxInode 0x81000, 0⟩
      ⟨dxFs 1, dxInode 0x81000, 1024⟩ (dxRootBlock 1) (by decide) (by decide) (by decide!)
      (by decide!)).2 (by decide!)⟩

/-- C15 (evaluation at the failing input): the times of `timedInode` are 1000, 2000
and 3000 seconds. With the `_extra` word 1 (low epoch bit set, no nanoseconds) the
claim gives `(1 << 32) | 1000` seconds, and `inodeAttr` reports 1000 seconds; with
the word 4 (epoch bits clear, one nanosecond) the claim gives 2000 seconds, and
`inodeAttr` reports `(4 << 32) + 2000` seconds; with the word 2 the claim gives
`(2 << 32) | 3000` seconds, and `inodeAttr` reports 3000. The mask applied to the
`_extra` word is 4, not 3. -/
theorem inodeAttr_masks_with_four :
    (inodeAttr (timedInode 1 4 2)).Atime = { sec := 1000, nsec := 0 } ∧
      ((1 &&& 3 : Nat) : Int) * 2 ^ 32 + 1000 = 4294968296 ∧
      (inodeAttr (timedInode 1 4 2)).Mtime = { sec := 17179871184, nsec := 1 } ∧
      ((4 &&& 3 : Nat) : Int) * 2 ^ 32 + 2000 = 2000 ∧
      (inodeAttr (timedInode 1 4 2)).Ctime = { sec := 3000, nsec := 0 } ∧
      ((2 &&& 3 : Nat) : Int) * 2 ^ 32 + 3000 = 8589937592 := by
  decide

/-- C16 (evaluation at the failing input): `twoGroupImage table` is a volume without
the 64BIT feature, with blocks of 1024 bytes and descriptors of 32 bytes, the
descriptor of group 0 at the byte 2048. The images `twoGroupImage 0` and
`twoGroupImage 9` have the same 32 bytes there and differ in the descriptor that
follows. `readGroupDesc` decodes 64 bytes, so that `inode_table_hi` of group 0 is the
`inode_table_lo` of group 1: the location of the inode table of group 0 is 3 on the
first image and `3 + 9 * 2^32` on the second, where the read of the root inode
fails and `/hello`, which is read on the first image, is not. -/
theorem readGroupDesc_reads_next_descriptor :
    Except.map (fun fs => (fs.superBlock.Feature_incompat &&& EXT4_FEATURE_INCOMPAT_64BIT,
        fs.blockSize, fs.groupDescSize, groupDescAddr fs 0))
        (readSuperBlock (twoGroupImage 9)) = .ok (0, 1024, 32, 2048) ∧
      ((twoGroupImage 0).drop 2048).take 32 = ((twoGroupImage 9).drop 2048).take 32 ∧
      Except.bind (readSuperBlock (twoGroupImage 0))
        (fun fs => Except.map inodeTableLoc (readGroupDesc fs 0)) = .ok 3 ∧
      Except.bind (readSuperBlock (twoGroupImage 9))
        (fun fs => Except.map inodeTableLoc (readGroupDesc fs 0)) = .ok (3 + 9 * 2 ^ 32) ∧
      readFile .shared 1 2 (twoGroupImage 0) [47, 104, 101, 108, 108, 111] =
        .ok [104, 101, 108, 108, 111] ∧
      readFile .shared 1 2 (twoGroupImage 9) [47, 104, 101, 108, 108, 111] = .error .io :=
  ⟨twoGroupImage_volume, twoGroupImage_descriptor, twoGroupImage_table_zero,
    twoGroupImage_table_nine, twoGroupImage_readFile_zero, twoGroupImage_readFile_nine⟩

/-- C17 (counterexample): the inline root of `crowdedRootInode` declares
`entries = 2 > max = 1`, and `physicalLoc` returns its second record; block 2 of
`overfullDev` declares `entries = 86 > max = 84`, and `physicalLoc` returns the
record decoded from the bytes 8 to 19 of block 3, beyond the block of 1024 bytes
that holds the node. -/
theorem physicalLoc_accepts_entries_above_max :
    Except.map (fun p => (p.1.Entries, p.1.Max))
        (readExtentHeader (nodeBytes crowdedRootInode none)) = .ok (2, 1) ∧
      physicalLoc .shared 1 smallFs crowdedRootInode 1 none =
        .ok { Block := 1, Len := 1, Start_hi := 0, Start_lo := 9 } ∧
      Except.map (fun p => (p.1.Entries, p.1.Max))
        (readExtentHeader (overfullDev.drop (2 * 1024))) = .ok (86, 84) ∧
      physicalLoc .shared 2 overfullFs overfullInode 500 none =
        .ok { Block := 500, Len := 10, Start_hi := 0, Start_lo := 77 } ∧
      physicalLoc .fresh 2 overfullFs overfullInode 500 none =
        .ok { Block := 500, Len := 10, Start_hi := 0, Start_lo := 77 } ∧
      decodeExtent ((overfullDev.drop (3 * 1024 + 8)).take 12) =
        { Block := 500, Len := 10, Start_hi := 0, Start_lo := 77 } := by
  refine ⟨by decide, by decide, by decide!, by decide!, by decide!, by decide!⟩

/-- C17 (amended): `physicalLoc` does not compare `entries` with `max`. Two nodes
that differ in the bytes 4 and 5 (the field `max`) at most give the same result. A
leaf node with the magic number whose `entries` records are there in its reader is
searched in exactly these records, wherever a block ends, and fails on the read when
fewer bytes are there. The inline root has 48 bytes after its header, so with
`entries > 4` it fails on the read: no record beyond the 60 bytes is decoded. -/
theorem physicalLoc_ignores_max (sem : RangeVar) (fuel : Nat) (fs : Ext4FS)
    (inode : ext4Inode) (target : Int) :
    (∀ (inode' : ext4Inode) (input input' : Option (List Byte)),
      (nodeBytes inode input).take 4 = (nodeBytes inode' input').take 4 →
      (nodeBytes inode input).drop 6 = (nodeBytes inode' input').drop 6 →
      physicalLoc sem fuel fs inode target input =
        physicalLoc sem fuel fs inode' target input') ∧
    (∀ (input : Option (List Byte)) (hdr : ext4ExtentHeader) (rest : List Byte),
      readExtentHeader (nodeBytes inode input) = .ok (hdr, rest) →
      hdr.Magic = EXT4_EXT_MAGIC → hdr.Depth = 0 →
      (extentRecordSize * hdr.Entries ≤ rest.length →
        physicalLoc sem (fuel + 1) fs inode target input =
          leafLoop target (nodeExtents hdr rest)) ∧
      (rest.length < extentRecordSize * hdr.Entries →
        physicalLoc sem (fuel + 1) fs inode target input = .error .io)) ∧
    (∀ (hdr : ext4ExtentHeader) (rest : List Byte), inode.Block.length = 15 →
      readExtentHeader (nodeBytes inode none) = .ok (hdr, rest) →
      hdr.Magic = EXT4_EXT_MAGIC → 4 < hdr.Entries →
      physicalLoc sem (fuel + 1) fs inode target none = .error .io) := by
  refine ⟨?_, ?_, ?_⟩
  · intro inode' input input' htake hdrop
    cases fuel with
    | zero => rfl
    | succ fuel =>
      rw [physicalLoc, physicalLoc]
      rcases readExtentHeader_max_irrelevant _ _ htake hdrop with
        ⟨h1, h2⟩ | ⟨hdr, hdr', rest, h1, h2, hm, he, hd⟩
      · rw [h1, h2]
      · rw [h1, h2]
        simp only [hm, he, hd, physicalLoc_some_congr sem fs inode inode' target fuel]
  · intro input hdr rest hh hm hd
    have heq := physicalLoc_leaf_eq sem fuel fs inode target input hdr rest hh hd
    have hm' : ¬ (hdr.Magic ≠ EXT4_EXT_MAGIC) := by rw [hm]; simp
    rw [if_neg hm'] at heq
    constructor
    · intro hlen
      rw [heq]
      unfold readRecords
      rw [readBytes_eq _ _ hlen]
      rfl
    · intro hlen
      rw [heq]
      unfold readRecords
      rw [readBytes_short _ _ hlen]
  · intro hdr rest hlen15 hh hm hent
    obtain ⟨-, -, hrest⟩ := readExtentHeader_ok hh
    have hlen : rest.length < extentRecordSize * hdr.Entries := by
      rw [hrest, List.length_drop]
      show (encodeBlock inode.Block).length - extentRecordSize < extentRecordSize * hdr.Entries
      rw [encodeBlock_length, hlen15]
      unfold extentRecordSize
      omega
    have hr : ∀ {α : Type} (dec : List Byte → α),
        readRecords dec hdr.Entries rest = .error .io := by
      intro α dec
      unfold readRecords
      rw [readBytes_short _ _ hlen]
    have hm' : ¬ (hdr.Magic ≠ EXT4_EXT_MAGIC) := by rw [hm]; simp
    rw [physicalLoc]
    simp only [hh, if_neg hm', hr]
    split_ifs <;> rfl

/-- Witness of `physicalLoc_ignores_max`: the roots of `crowdedRootInode`
(`max = 1`) and of `roomyRootInode` (`max = 4`) give the same result, the second
record; the leaf node in block 2 of `overfullDev` is searched in its 86 records; and
the root of `fiveEntriesInode`, with `entries = 5`, fails on the read. -/
theorem physicalLoc_ignores_max_witness :
    (physicalLoc .shared 1 smallFs crowdedRootInode 1 none =
        physicalLoc .shared 1 smallFs roomyRootInode 1 none ∧
      physicalLoc .shared 1 smallFs roomyRootInode 1 none =
        .ok { Block := 1, Len := 1, Start_hi := 0, Start_lo := 9 }) ∧
      physicalLoc .shared 1 overfullFs overfullInode 500 (some (overfullDev.drop 2048)) =
        leafLoop 500 (nodeExtents
          { Magic := 0xF30A, Entries := 86, Max := 84, Depth := 0, Generation := 0 }
          (overfullDev.drop 2060)) ∧
      physicalLoc .shared 1 smallFs fiveEntriesInode 0 none = .error .io :=
  ⟨⟨(physicalLoc_ignores_max .shared 1 smallFs crowdedRootInode 1).1 roomyRootInode none none
      (by decide) (by decide), by decide⟩,
    ((physicalLoc_ignores_max .shared 0 overfullFs overfullInode 500).2.1
      (some (overfullDev.drop 2048))
      { Magic := 0xF30A, Entries := 86, Max := 84, Depth := 0, Generation := 0 }
      (overfullDev.drop 2060) (by decide!) (by decide) (by decide)).1 (by decide!),
    (physicalLoc_ignores_max .shared 0 smallFs fiveEntriesInode 0).2.2
      { Magic := 0xF30A, Entries := 5, Max := 4, Depth := 0, Generation := 0 }
      ((encodeBlock fiveEntriesInode.Block).drop 12) (by decide) (by decide) (by decide)
      (by decide)⟩

/-- C18 (counterexample): for the block size `1024 = 1024 << 0` the block of the
descriptor table that `readGroupDesc` computes is `1024 / 1024 + 1 = 2`, not 1, and
the descriptor of group 0 is read at the byte 2048. -/
theorem gdtLocation_small_blocks :
    smallFs.blockSize = 1024 * 2 ^ 0 ∧ gdtLocation smallFs = 2 ∧
      groupDescAddr smallFs 0 = 2048 := by
  decide

/-- C18 (amended): for a block size of the form `1024 << k` the block of the
descriptor table that `readGroupDesc` computes as `1024 / block_size + 1` (integer
division) is block 2 when `block_size = 1024` (`k = 0`) and block 1 when
`block_size >= 2048` (`k >= 1`); the descriptor of group `g` is read at
`table_block * block_size + group_desc_size * g`. -/
theorem gdtLocation_by_block_size (ext4fs : Ext4FS) (k : Nat)
    (hbs : ext4fs.blockSize = 1024 * 2 ^ k) :
    gdtLocation ext4fs = (if k = 0 then 2 else 1) ∧
    (ext4fs.blockSize = 1024 → gdtLocation ext4fs = 2) ∧
    (2048 ≤ ext4fs.blockSize → gdtLocation ext4fs = 1) ∧
    ∀ g : Int, groupDescAddr ext4fs g
      = gdtLocation ext4fs * ext4fs.blockSize + ext4fs.groupDescSize * g := by
  have hpos : (0 : Int) < 2 ^ k := by positivity
  have hbpos : (0 : Int) < ext4fs.blockSize := by rw [hbs]; positivity
  have hmain : gdtLocation ext4fs = (if k = 0 then 2 else 1) := by
    unfold gdtLocation
    rw [Int.tdiv_eq_ediv (by norm_num) (le_of_lt hbpos), hbs]
    split_ifs with hk
    · subst hk
      norm_num
    · have h2 : (2 : Int) ≤ 2 ^ k := by
        have : (2 : Int) ^ 1 ≤ 2 ^ k := pow_le_pow_right₀ (by norm_num) (by omega)
        simpa using this
      rw [Int.ediv_eq_zero_of_lt (by norm_num) (by omega)]
      norm_num
  refine ⟨hmain, ?_, ?_, fun g => groupDescAddr_eq ext4fs g⟩
  · intro h1024
    rw [hmain]
    have hk : k = 0 := by
      by_contra hk
      have h2 : (2 : Int) ≤ 2 ^ k := by
        have : (2 : Int) ^ 1 ≤ 2 ^ k := pow_le_pow_right₀ (by norm_num) (by omega)
        simpa using this
      rw [hbs] at h1024
      omega
    rw [if_pos hk]
  · intro h2048
    rw [hmain]
    have hk : k ≠ 0 := by
      intro hk
      subst hk
      rw [hbs] at h2048
      norm_num at h2048
    rw [if_neg hk]

/-- Witness of `gdtLocation_by_block_size`: `smallFs` has blocks of `1024 << 0` bytes
and its descriptor table is at block 2. -/
theorem gdtLocation_by_block_size_witness :
    smallFs.blockSize = 1024 * 2 ^ 0 ∧ gdtLocation smallFs = 2 :=
  ⟨by decide,
    (gdtLocation_by_block_size smallFs 0 (by decide)).2.1 (by decide)⟩

/-- C19: for a directory inode whose first block holds a complete index header with
`indirect_levels = 0`, `listDir` gives, whatever the flags of the inode are and so in
particular with `INDEX_FL` set, the same result (the same sequence of entries, or the
same panic) as for the same inode on the same device with flags in which `INDEX_FL`
is clear: the index header drops and adds no entry. -/
theorem listDir_ignores_index (sem : RangeVar) (depth fuel : Nat) (fs : Ext4FS)
    (inode : ext4Inode) (offset : Int) (flags' : Nat) (dirBlock : List Byte)
    (inode' : Ext4InodeReader)
    (hclear : flags' &&& EXT4_INDEX_FL = 0)
    (hread : read sem depth ⟨fs, inode, offset⟩ fs.blockSize = .ok (dirBlock, inode'))
    (hcomplete : CompleteIndexHeader dirBlock) :
    Except.map Prod.fst (listDir sem depth fuel ⟨fs, inode, offset⟩) =
      Except.map Prod.fst (listDir sem depth fuel ⟨fs, { inode with Flags := flags' }, offset⟩) := by
  by_cases hdir : inode.Mode &&& S_IFDIR = 0
  · have h1 : listDir sem depth fuel ⟨fs, inode, offset⟩ = .error .notDirectory := by
      unfold listDir
      rw [if_pos hdir]
    have h2 : listDir sem depth fuel ⟨fs, { inode with Flags := flags' }, offset⟩ =
        .error .notDirectory := by
      unfold listDir
      rw [if_pos hdir]
    rw [h1, h2]
  · have hread' : read sem depth (setFlags flags' ⟨fs, inode, offset⟩) fs.blockSize =
        .ok (dirBlock, setFlags flags' inode') := by
      rw [read_setFlags, hread]
    have h1 := listDir_of_header_ok sem depth fuel ⟨fs, inode, offset⟩ inode' dirBlock hdir
      hread (fun _ => dxHeader_ok dirBlock hcomplete)
    have h2 := listDir_of_header_ok sem depth fuel (setFlags flags' ⟨fs, inode, offset⟩)
      (setFlags flags' inode') dirBlock hdir hread'
      (fun h => absurd hclear (Nat.pos_iff_ne_zero.mp h))
    have h2' : listDir sem depth fuel ⟨fs, { inode with Flags := flags' }, offset⟩ =
        listDirLoop sem depth fuel (setFlags flags' inode') dirBlock [] := h2
    rw [h1, h2', listDirLoop_setFlags]
    cases listDirLoop sem depth fuel inode' dirBlock [] with
    | error e => rfl
    | ok p => rfl

/-- Witness of `listDir_ignores_index`: the directory of two blocks on `dxFs 0`,
whose first block holds an index header with `count = 2` and no indirect levels,
lists `.`, `..` and `hello` with the flags `0x81000` as with the flags `0x80000`. -/
theorem listDir_ignores_index_witness :
    (dxInode 0x81000).Flags &&& EXT4_INDEX_FL > 0 ∧ 0x80000 &&& EXT4_INDEX_FL = 0 ∧
      CompleteIndexHeader (dxRootBlock 0) ∧
      Except.map Prod.fst (listDir .shared 1 3 ⟨dxFs 0, dxInode 0x81000, 0⟩) =
        Except.map Prod.fst (listDir .shared 1 3 ⟨dxFs 0, dxInode 0x80000, 0⟩) ∧
      Except.map (fun p => p.1.map (fun e => (e.Inode, e.Name)))
          (listDir .shared 1 3 ⟨dxFs 0, dxInode 0x81000, 0⟩) =
        .ok [(2, [46]), (2, [46, 46]), (12, [104, 101, 108, 108, 111])] :=
  ⟨by decide, by decide, ⟨by decide!, by decide!⟩,
    listDir_ignores_index .shared 1 3 (dxFs 0) (dxInode 0x81000) 0 0x80000 (dxRootBlock 0)
      ⟨dxFs 0, dxInode 0x81000, 1024⟩ (by decide) (by decide!)
      ⟨by decide!, by decide!⟩,
    by decide!⟩

/-- C20 (counterexample): the root of `cyclicInode` has depth 1 and its child is
block 2 of `cyclicDev`, whose header has depth 1 again and whose child is block 2
itself. The walk of `physicalLoc` descends from block 2 into block 2 without end: it
has no result with the fuel `depth + 1 = 2`, and none with any fuel. -/
theorem physicalLoc_cyclic_never_returns :
    headerDepth (nodeBytes cyclicInode none) = 1 ∧ headerDepth (cyclicDev.drop 2048) = 1 ∧
      childNode .shared cyclicFs 0 (nodeBytes cyclicInode none) = some (cyclicDev.drop 2048) ∧
      childNode .shared cyclicFs 0 (cyclicDev.drop 2048) = some (cyclicDev.drop 2048) ∧
      physicalLoc .shared 2 cyclicFs cyclicInode 0 none = .error .fuel ∧
      physicalLoc .fresh 2 cyclicFs cyclicInode 0 none = .error .fuel ∧
      (∀ fuel, physicalLoc .shared fuel cyclicFs cyclicInode 0 none = .error .fuel) ∧
      (∀ fuel, physicalLoc .fresh fuel cyclicFs cyclicInode 0 none = .error .fuel) := by
  have hall : ∀ sem fuel, physicalLoc sem fuel cyclicFs cyclicInode 0 none = .error .fuel := by
    intro sem fuel
    cases fuel with
    | zero => rfl
    | succ fuel =>
      have hc : childNode sem cyclicFs 0 (nodeBytes cyclicInode none) =
          some (cyclicDev.drop 2048) := by
        cases sem <;> decide!
      rw [physicalLoc_descend sem fuel cyclicFs cyclicInode 0 none _ hc]
      exact physicalLoc_cyclic sem fuel
  exact ⟨by decide, by decide!, by decide!, by decide!, hall _ _, hall _ _, hall _, hall _⟩

/-- C20 (amended): `physicalLoc` does not compare the depth of a child with the
depth of its parent. On a device image, inode and target for which every child that
the walk descends into has a header depth strictly smaller than its parent's, the
walk ends after at most `depth + 1` calls, one node read per call, `depth` being the
depth in the header of the root: the fuel `depth + 1` gives a result or a panic of
the program, and every larger fuel gives the same. -/
theorem physicalLoc_terminates (sem : RangeVar) (fs : Ext4FS) (inode : ext4Inode)
    (target : Int) (input : Option (List Byte))
    (hdec : depthsDecrease sem fs target (headerDepth (nodeBytes inode input))
      (nodeBytes inode input) = true) :
    physicalLoc sem (headerDepth (nodeBytes inode input) + 1) fs inode target input ≠
        .error .fuel ∧
      ∀ fuel, headerDepth (nodeBytes inode input) + 1 ≤ fuel →
        physicalLoc sem fuel fs inode target input =
          physicalLoc sem (headerDepth (nodeBytes inode input) + 1) fs inode target input := by
  obtain ⟨h1, h2⟩ := physicalLoc_fuel_enough sem fs inode target
    (headerDepth (nodeBytes inode input)) input (le_refl _) hdec
  exact ⟨h2, h1⟩

/-- Witness of `physicalLoc_terminates`: on `treeFs` the root of `treeInode` has
depth 1 and its children are leaves, and the walk for the logical block 120 ends
with the fuel 2, in the extent of the second leaf. -/
theorem physicalLoc_terminates_witness :
    headerDepth (nodeBytes treeInode none) = 1 ∧
      depthsDecrease .fresh treeFs 120 1 (nodeBytes treeInode none) = true ∧
      physicalLoc .fresh 2 treeFs treeInode 120 none =
        .ok { Block := 100, Len := 50, Start_hi := 0, Start_lo := 200 } ∧
      physicalLoc .fresh (headerDepth (nodeBytes treeInode none) + 1) treeFs treeInode 120 none ≠
        .error .fuel :=
  ⟨by decide, by decide!, by decide!,
    (physicalLoc_terminates .fresh treeFs treeInode 120 none (by decide!)).1⟩

end Ext4
